import Mathlib

/-!
Renaming a kubeconfig context (kubectx)

A shallow embedding of `cmd/kubectx/rename.go`.

The program edits a YAML document through `gopkg.in/yaml.v3` nodes, which it
mutates in place through pointers.  Here a node is an immutable tree and every
mutating function returns the tree it leaves behind.  A pointer that may be
`nil` is an `Option`; dereferencing `nil` is the outcome `panic`.

`RenameOp.Run` and `modifyContextName` are translated from `rename.go`.  The
helpers they call which live in other files of the repository
(`valueOf`, `getCurrentContext`, `checkContextExists`,
`modifyDocToDeleteContext`, `modifyCurrentContext`) are modelled from the
specification; `openKubeconfig` and `saveKubeconfigRaw` are parameters of the
environment in which `Run` executes.
-/

set_option autoImplicit false

namespace Kubectx

/-! ## The yaml.v3 node tree -/

/-- The kinds of a `yaml.Node`. -/
inductive Kind where
  | DocumentNode
  | SequenceNode
  | MappingNode
  | ScalarNode
  | AliasNode
  deriving DecidableEq, Repr

/-- Formatting data carried by a `yaml.Node` which the program never reads:
style, tag, anchor, the three comments, line and column. -/
structure Fmt where
  Style : Nat
  Tag : String
  Anchor : String
  HeadComment : String
  LineComment : String
  FootComment : String
  Line : Nat
  Column : Nat
  deriving DecidableEq, Repr

/-- A `yaml.Node`: kind, scalar value, formatting data and children.  The
children of a mapping node alternate key, value, key, value, ... -/
inductive Node where
  | mk (Kind : Kind) (Value : String) (fmt : Fmt) (Content : List Node)

namespace Node

/-- Field `Kind`. -/
def kind : Node → Kind
  | mk k _ _ _ => k

/-- Field `Value`. -/
def value : Node → String
  | mk _ v _ _ => v

/-- The formatting fields. -/
def fmt : Node → Fmt
  | mk _ _ f _ => f

/-- Field `Content`. -/
def content : Node → List Node
  | mk _ _ _ c => c

/-- The node after the assignment `n.Value = v`. -/
def setValue : Node → String → Node
  | mk k _ f c, v => mk k v f c

/-- The node after the assignment `n.Content = c`. -/
def setContent : Node → List Node → Node
  | mk k v f _, c => mk k v f c

end Node

/-! ## Helpers of the repository outside `rename.go` -/

/-- Scan of the children of a mapping for the value stored under `key`: the
child following the first key child that is a scalar equal to `key`. -/
def valueOfList : List Node → String → Option Node
  | k :: v :: rest, key =>
      if k.kind = Kind.ScalarNode ∧ k.value = key then some v else valueOfList rest key
  | _, _ => none

/-- Modelled from the spec: `valueOf` is not in `rename.go`.  A Mapping holds
an ordered sequence of (key, Node) pairs; `valueOf(node, key)` is the child
stored under `key`, and `nil` when `node` is not a mapping or has no such
key. -/
def valueOf (mapNode : Node) (key : String) : Option Node :=
  if mapNode.kind = Kind.MappingNode then valueOfList mapNode.content key else none

/-- The children of a mapping after the node stored under `key` (the one
`valueOfList` returns) has been replaced by `v`. -/
def putValueList : List Node → String → Node → List Node
  | k :: w :: rest, key, v =>
      if k.kind = Kind.ScalarNode ∧ k.value = key then k :: v :: rest
      else k :: w :: putValueList rest key v
  | l, _, _ => l

/-- The tree after the node that `valueOf mapNode key` points to has been
mutated into `v`: the pure counterpart of a write through that pointer. -/
def putValue (mapNode : Node) (key : String) (v : Node) : Node :=
  if mapNode.kind = Kind.MappingNode then
    mapNode.setContent (putValueList mapNode.content key v)
  else mapNode

/-- The name a context entry carries: the value of its `name` child when that
child is a scalar. -/
def nameOf (contextNode : Node) : Option String :=
  match valueOf contextNode "name" with
  | some nameNode => if nameNode.kind = Kind.ScalarNode then some nameNode.value else none
  | none => none

/-- The entries of the top-level `contexts` sequence (none when the root is
not a mapping, or `contexts` is missing or not a sequence). -/
def contextsOf (rootNode : Node) : List Node :=
  match valueOf rootNode "contexts" with
  | some contexts => if contexts.kind = Kind.SequenceNode then contexts.content else []
  | none => []

/-- The names of the context entries, in sequence order. -/
def contextNames (rootNode : Node) : List String :=
  (contextsOf rootNode).filterMap nameOf

/-- Modelled from the spec: `getCurrentContext` is not in `rename.go`.
`currentContext()` reads the top-level `current-context` scalar and returns the
empty string if it is absent. -/
def getCurrentContext (rootNode : Node) : String :=
  match valueOf rootNode "current-context" with
  | some v => if v.kind = Kind.ScalarNode then v.value else ""
  | none => ""

/-- Scan of the `contexts` sequence for an entry named `name`. -/
def findContext (name : String) : List Node → Option Node
  | [] => none
  | c :: cs => if nameOf c = some name then some c else findContext name cs

/-- Modelled from the spec: `checkContextExists` is not in `rename.go`.
`contextExists(name)` is true iff `findContextByName` succeeds, which scans the
top-level `contexts` sequence and fails when the root is not a mapping or
`contexts` is missing or not a sequence. -/
def checkContextExists (rootNode : Node) (name : String) : Bool :=
  match valueOf rootNode "contexts" with
  | some contexts =>
      if contexts.kind = Kind.SequenceNode then (findContext name contexts.content).isSome
      else false
  | none => false

/-- Errors of the program.  The first four are the `errors.New` values of
`modifyContextName`, `contextNotFound` is the `errors.Errorf` of `Run`, the
`wrap...` ones are the `errors.Wrap` calls of `Run`. -/
inductive Err where
  /-- Message "root doc is not a mapping node". -/
  | rootNotMapping
  /-- Message "\"contexts\" entry is nil". -/
  | contextsNil
  /-- Message "\"contexts\" is not a sequence node". -/
  | contextsNotSequence
  /-- Message "no changes were made". -/
  | noChanges
  /-- The error of `Run` for a source name that is not found, carrying the name. -/
  | contextNotFound (name : String)
  /-- Wrapped with "failed to delete new context to overwrite it". -/
  | wrapDelete (cause : Err)
  /-- Wrapped with "failed to change context name". -/
  | wrapRename (cause : Err)
  /-- Wrapped with "failed to set current-context to new name". -/
  | wrapSetCurrent (cause : Err)
  /-- Wrapped with "failed to save modified kubeconfig". -/
  | wrapSave (cause : Err)
  /-- An error of a function outside `rename.go`. -/
  | other (msg : String)
  deriving DecidableEq, Repr

/-- The sequence after its first entry named `name` has been removed; `none`
when no entry carries that name. -/
def deleteFirst (name : String) : List Node → Option (List Node)
  | [] => none
  | c :: cs =>
      if nameOf c = some name then some cs
      else match deleteFirst name cs with
        | some cs1 => some (c :: cs1)
        | none => none

/-- Modelled from the spec: `modifyDocToDeleteContext` is not in `rename.go`.
`deleteContextEntry(name) -> Ok | NotFound` removes the first element of the
`contexts` sequence whose `name` child equals `name`; a failing operation
leaves the tree as it was.  Returns the tree left behind and the error. -/
def modifyDocToDeleteContext (rootNode : Node) (deleting : String) : Node × Option Err :=
  match valueOf rootNode "contexts" with
  | some contexts =>
      if contexts.kind = Kind.SequenceNode then
        match deleteFirst deleting contexts.content with
        | some cs => (putValue rootNode "contexts" (contexts.setContent cs), none)
        | none => (rootNode, some (Err.other "NotFound"))
      else (rootNode, some (Err.other "MalformedDocument"))
  | none => (rootNode, some (Err.other "MalformedDocument"))

/-- Modelled from the spec: `modifyCurrentContext` is not in `rename.go`.
`setCurrentContext(name) -> Ok` overwrites the top-level `current-context`
scalar value; creating the key when it is absent is out of scope, so the tree
is then left as it is. -/
def modifyCurrentContext (rootNode : Node) (name : String) : Node × Option Err :=
  match valueOf rootNode "current-context" with
  | some v =>
      if v.kind = Kind.ScalarNode then
        (putValue rootNode "current-context" (v.setValue name), none)
      else (rootNode, none)
  | none => (rootNode, none)

/-! ## `rename.go` -/

/-- How a call ends: it returns `nil`, returns an error, or aborts the program
by dereferencing a nil pointer. -/
inductive Outcome where
  | ok
  | error (e : Err)
  | panic
  deriving DecidableEq, Repr

/-- Lines written to standard error. -/
inductive Output where
  /-- The line of `printWarning("context %q exists, overwriting it.", name)`. -/
  | warning (name : String)
  /-- The line of `fmt.Fprintf(os.Stderr, "Context %q renamed to %q.\n", old, new)`. -/
  | renamed (old new : String)
  deriving DecidableEq, Repr

/-- What the `for` loop of `modifyContextName` leaves behind. -/
inductive Renamed where
  /-- An entry matched: `changed = true`, with the sequence after the write. -/
  | changed (contexts : List Node)
  /-- The loop ran to its end without a match. -/
  | unchanged
  /-- `nameNode` was nil when `nameNode.Kind` was read. -/
  | nilDeref

/-- The `for` loop of `modifyContextName` over `contexts.Content`: the first
entry whose `name` node is a scalar equal to `old` gets the value `new`, and the
loop breaks.  Reading `nameNode.Kind` of an entry without a `name` child
dereferences nil. -/
def renameLoop (old new : String) : List Node → Renamed
  | [] => Renamed.unchanged
  | contextNode :: rest =>
      match valueOf contextNode "name" with
      | none => Renamed.nilDeref
      | some nameNode =>
          if nameNode.kind = Kind.ScalarNode ∧ nameNode.value = old then
            Renamed.changed (putValue contextNode "name" (nameNode.setValue new) :: rest)
          else
            match renameLoop old new rest with
            | Renamed.changed rest1 => Renamed.changed (contextNode :: rest1)
            | Renamed.unchanged => Renamed.unchanged
            | Renamed.nilDeref => Renamed.nilDeref

/-- The result of `modifyContextName`: the tree it leaves behind, how it ended
and what it printed. -/
structure Modified where
  root : Node
  outcome : Outcome
  stderr : List Output

/-- Function `modifyContextName(rootNode, old, new)` of `rename.go`. -/
def modifyContextName (rootNode : Node) (old new : String) : Modified :=
  if rootNode.kind ≠ Kind.MappingNode then
    ⟨rootNode, Outcome.error Err.rootNotMapping, []⟩
  else
    match valueOf rootNode "contexts" with
    | none => ⟨rootNode, Outcome.error Err.contextsNil, []⟩
    | some contexts =>
        if contexts.kind ≠ Kind.SequenceNode then
          ⟨rootNode, Outcome.error Err.contextsNotSequence, []⟩
        else
          match renameLoop old new contexts.content with
          | Renamed.nilDeref => ⟨rootNode, Outcome.panic, []⟩
          | Renamed.unchanged => ⟨rootNode, Outcome.error Err.noChanges, []⟩
          | Renamed.changed cs =>
              ⟨putValue rootNode "contexts" (contexts.setContent cs), Outcome.ok,
                [Output.renamed old new]⟩

/-- Type `RenameOp`. -/
structure RenameOp where
  /-- NAME of New context -/
  New : String
  /-- NAME of Old context (or "." for current-context) -/
  Old : String
  deriving DecidableEq, Repr

/-- The pieces of `strings.Split(v, sep)` for a separator of one character,
on the characters of `v`: the substrings between the occurrences of `sep`, one
more than there are occurrences (a string without `sep` is its own single
piece, also when it is empty). -/
def stringsSplit (sep : Char) : List Char → List (List Char)
  | [] => [[]]
  | c :: cs =>
      if c = sep then [] :: stringsSplit sep cs
      else
        match stringsSplit sep cs with
        | p :: ps => (c :: p) :: ps
        | [] => [[c]]

/-- Function `parseRenameSyntax(v)` of `rename.go`: `s := strings.Split(v, "=")`,
then the two checks on `len(s)` and on the empty pieces. -/
def parseRenameSyntax (v : String) : String × String × Bool :=
  let s := (stringsSplit '=' v.data).map String.mk
  if s.length ≠ 2 then ("", "", false)
  else
    let new := s.getD 0 ""
    let old := s.getD 1 ""
    if new = "" ∨ old = "" then ("", "", false)
    else (new, old, true)

/-- The collaborators of `Run` outside `rename.go`: what `openKubeconfig`
returns (the root node, or an error) and what `saveKubeconfigRaw` returns for a
tree (`none` is `nil`). -/
structure Env where
  openKubeconfig : Except Err Node
  saveKubeconfigRaw : Node → Option Err

/-- The calls `Run` makes, in order. -/
inductive Call where
  | openKubeconfig
  | getCurrentContext
  | checkContextExists (name : String)
  | printWarning (name : String)
  | modifyDocToDeleteContext (name : String)
  | modifyContextName (old new : String)
  | modifyCurrentContext (name : String)
  | saveKubeconfigRaw (doc : Node)

/-- An execution of `Run`: how it ended, the tree in memory at that point
(`none` when no document was loaded), the calls made and the lines printed. -/
structure RunResult where
  outcome : Outcome
  root : Option Node
  calls : List Call
  stderr : List Output

/-- The overwrite step of `Run` (lines 52 to 57): when the new name exists, a
warning is printed and the entry carrying it is deleted.  Returns the tree, the
error of the delete, the calls and the output of the step. -/
def overwriteStep (rootNode : Node) (new : String) :
    Node × Option Err × List Call × List Output :=
  if checkContextExists rootNode new then
    let r := modifyDocToDeleteContext rootNode new
    (r.1, r.2, [Call.checkContextExists new, Call.printWarning new,
      Call.modifyDocToDeleteContext new], [Output.warning new])
  else (rootNode, none, [Call.checkContextExists new], [])

/-- The pointer step of `Run` (lines 62 to 66): when the new name equals the
captured `cur`, `current-context` is set to the new name. -/
def pointerStep (rootNode : Node) (new cur : String) : Node × Option Err × List Call :=
  if new = cur then
    let r := modifyCurrentContext rootNode new
    (r.1, r.2, [Call.modifyCurrentContext new])
  else (rootNode, none, [])

/-- Method `RenameOp.Run` of `rename.go`.  The two writers it receives are
unused; the deferred `f.Close()` does not touch the tree and is not recorded.
When `openKubeconfig` fails the method returns `nil`. -/
def Run (op : RenameOp) (env : Env) : RunResult :=
  match env.openKubeconfig with
  | Except.error _ => ⟨Outcome.ok, none, [Call.openKubeconfig], []⟩
  | Except.ok rootNode =>
    let cur := getCurrentContext rootNode
    let old := if op.Old = "." then cur else op.Old
    let c0 := [Call.openKubeconfig, Call.getCurrentContext, Call.checkContextExists old]
    if checkContextExists rootNode old = false then
      ⟨Outcome.error (Err.contextNotFound old), some rootNode, c0, []⟩
    else
      match overwriteStep rootNode op.New with
      | (root1, some e, c1, o1) =>
          ⟨Outcome.error (Err.wrapDelete e), some root1, c0 ++ c1, o1⟩
      | (root1, none, c1, o1) =>
          let m := modifyContextName root1 old op.New
          let c2 := c0 ++ c1 ++ [Call.modifyContextName old op.New]
          match m.outcome with
          | Outcome.panic => ⟨Outcome.panic, some m.root, c2, o1 ++ m.stderr⟩
          | Outcome.error e =>
              ⟨Outcome.error (Err.wrapRename e), some m.root, c2, o1 ++ m.stderr⟩
          | Outcome.ok =>
              match pointerStep m.root op.New cur with
              | (root3, some e, c3) =>
                  ⟨Outcome.error (Err.wrapSetCurrent e), some root3, c2 ++ c3, o1 ++ m.stderr⟩
              | (root3, none, c3) =>
                  let c4 := c2 ++ c3 ++ [Call.saveKubeconfigRaw root3]
                  match env.saveKubeconfigRaw root3 with
                  | some e => ⟨Outcome.error (Err.wrapSave e), some root3, c4, o1 ++ m.stderr⟩
                  | none => ⟨Outcome.ok, some root3, c4, o1 ++ m.stderr⟩

/-- The documents handed to `saveKubeconfigRaw` during an execution. -/
def savedDocs : List Call → List Node
  | [] => []
  | Call.saveKubeconfigRaw doc :: cs => doc :: savedDocs cs
  | _ :: cs => savedDocs cs

/-- Whether a call mutates the document tree. -/
def Call.mutates : Call → Bool
  | Call.modifyDocToDeleteContext _ => true
  | Call.modifyContextName _ _ => true
  | Call.modifyCurrentContext _ => true
  | _ => false

/-! ## Test documents -/

/-- Formatting data of a node built by hand. -/
def fmt0 : Fmt := ⟨0, "", "", "", "", "", 0, 0⟩

/-- A plain scalar. -/
def scalar (v : String) : Node := Node.mk Kind.ScalarNode v fmt0 []

/-- A mapping with the given keys and values. -/
def mapping (kvs : List (String × Node)) : Node :=
  Node.mk Kind.MappingNode "" fmt0 (kvs.flatMap fun kv => [scalar kv.1, kv.2])

/-- A sequence. -/
def sequence (items : List Node) : Node := Node.mk Kind.SequenceNode "" fmt0 items

/-- A context entry `{name: n}`. -/
def ctx (n : String) : Node := mapping [("name", scalar n)]

/-- The kubeconfig `{contexts: [{name: n} | n in names], current-context: cur}`. -/
def kubeconfig (names : List String) (cur : String) : Node :=
  mapping [("contexts", sequence (names.map ctx)), ("current-context", scalar cur)]

/-- The kubeconfig `{contexts: entries, current-context: cur}`. -/
def kubeconfigOf (entries : List Node) (cur : String) : Node :=
  mapping [("contexts", sequence entries), ("current-context", scalar cur)]

/-- A context entry without a `name` child, `{context: {cluster: c}}`. -/
def unnamedCtx : Node := mapping [("context", mapping [("cluster", scalar "c")])]

/-- An environment in which the kubeconfig loads as `root` and saving succeeds. -/
def envOf (root : Node) : Env := ⟨Except.ok root, fun _ => none⟩

/-- The source name `Run` works with: `op.Old`, or the current context when
`op.Old` is the sentinel ".". -/
def sourceName (op : RenameOp) (rootNode : Node) : String :=
  if op.Old = "." then getCurrentContext rootNode else op.Old

/-- Every entry of `contexts` carries a `name` child. -/
def AllNamed (rootNode : Node) : Prop :=
  ∀ e ∈ contextsOf rootNode, (valueOf e "name").isSome = true

/-! ## Reading and writing the children of a mapping -/

theorem pairs_induction {P : List Node → Prop} (h0 : P []) (h1 : ∀ a, P [a])
    (h2 : ∀ k v rest, P rest → P (k :: v :: rest)) : ∀ l, P l
  | [] => h0
  | [a] => h1 a
  | k :: v :: rest => h2 k v rest (pairs_induction h0 h1 h2 rest)

@[simp]
theorem Node.kind_setValue (n : Node) (v : String) : (n.setValue v).kind = n.kind := by
  cases n; rfl

@[simp]
theorem Node.value_setValue (n : Node) (v : String) : (n.setValue v).value = v := by
  cases n; rfl

@[simp]
theorem Node.kind_setContent (n : Node) (c : List Node) :
    (n.setContent c).kind = n.kind := by
  cases n; rfl

@[simp]
theorem Node.content_setContent (n : Node) (c : List Node) :
    (n.setContent c).content = c := by
  cases n; rfl

theorem Node.setValue_self (n : Node) : n.setValue n.value = n := by
  cases n; rfl

theorem valueOfList_put_same (key : String) (v : Node) (l : List Node) :
    (valueOfList l key).isSome = true → valueOfList (putValueList l key v) key = some v := by
  induction l using pairs_induction with
  | h0 => simp [valueOfList]
  | h1 a => simp [valueOfList]
  | h2 k w rest ih =>
    intro h
    by_cases hk : k.kind = Kind.ScalarNode ∧ k.value = key
    · simp [putValueList, valueOfList, hk]
    · simp only [valueOfList, hk, if_false] at h
      simp [putValueList, valueOfList, hk, ih h]

theorem valueOfList_put_other (key key2 : String) (v : Node) (hne : key2 ≠ key)
    (l : List Node) : valueOfList (putValueList l key v) key2 = valueOfList l key2 := by
  induction l using pairs_induction with
  | h0 => simp [putValueList]
  | h1 a => simp [putValueList]
  | h2 k w rest ih =>
    by_cases hk : k.kind = Kind.ScalarNode ∧ k.value = key
    · have hk2 : ¬ (k.kind = Kind.ScalarNode ∧ k.value = key2) := by
        rintro ⟨_, h2⟩
        exact hne (h2.symm.trans hk.2)
      have hne2 : ¬ key = key2 := fun h => hne h.symm
      simp [putValueList, valueOfList, hk, hne2]
    · simp [putValueList, valueOfList, hk, ih]

theorem putValueList_self (key : String) (v : Node) (l : List Node) :
    valueOfList l key = some v → putValueList l key v = l := by
  induction l using pairs_induction with
  | h0 => simp [putValueList]
  | h1 a => simp [putValueList]
  | h2 k w rest ih =>
    intro h
    by_cases hk : k.kind = Kind.ScalarNode ∧ k.value = key
    · simp only [valueOfList, hk, and_self, if_true, Option.some.injEq] at h
      simp [putValueList, hk, h]
    · simp only [valueOfList, hk, if_false] at h
      simp [putValueList, hk, ih h]

@[simp]
theorem kind_putValue (n : Node) (key : String) (v : Node) :
    (putValue n key v).kind = n.kind := by
  unfold putValue
  split <;> simp

theorem valueOf_put_same (n : Node) (key : String) (v : Node)
    (h : (valueOf n key).isSome = true) : valueOf (putValue n key v) key = some v := by
  unfold valueOf at h ⊢
  by_cases hk : n.kind = Kind.MappingNode
  · simp only [hk, if_true] at h
    simp [putValue, hk, valueOfList_put_same key v _ h]
  · simp [hk] at h

theorem valueOf_put_other (n : Node) (key key2 : String) (v : Node) (hne : key2 ≠ key) :
    valueOf (putValue n key v) key2 = valueOf n key2 := by
  unfold valueOf
  by_cases hk : n.kind = Kind.MappingNode
  · simp [putValue, hk, valueOfList_put_other key key2 v hne]
  · simp [putValue, hk]

theorem putValue_self (n : Node) (key : String) (v : Node) (h : valueOf n key = some v) :
    putValue n key v = n := by
  unfold valueOf at h
  by_cases hk : n.kind = Kind.MappingNode
  · simp only [hk, if_true] at h
    simp only [putValue, hk, if_true, putValueList_self key v _ h]
    cases n; rfl
  · simp [putValue, hk]

theorem contextsOf_put_contexts (root contexts : Node) (cs : List Node)
    (h : valueOf root "contexts" = some contexts) (hk : contexts.kind = Kind.SequenceNode) :
    contextsOf (putValue root "contexts" (contexts.setContent cs)) = cs := by
  have h1 : (valueOf root "contexts").isSome = true := by simp [h]
  simp [contextsOf, valueOf_put_same root "contexts" _ h1, hk]

theorem contextsOf_eq (root contexts : Node)
    (h : valueOf root "contexts" = some contexts) (hk : contexts.kind = Kind.SequenceNode) :
    contextsOf root = contexts.content := by
  simp [contextsOf, h, hk]

theorem getCurrentContext_put_contexts (root v : Node) :
    getCurrentContext (putValue root "contexts" v) = getCurrentContext root := by
  simp [getCurrentContext, valueOf_put_other root "contexts" "current-context" v (by decide)]

theorem contextsOf_put_current (root v : Node) :
    contextsOf (putValue root "current-context" v) = contextsOf root := by
  simp [contextsOf, valueOf_put_other root "current-context" "contexts" v (by decide)]

theorem nameOf_put_name (c nameNode : Node) (new : String)
    (h : valueOf c "name" = some nameNode) (hk : nameNode.kind = Kind.ScalarNode) :
    nameOf (putValue c "name" (nameNode.setValue new)) = some new := by
  have h1 : (valueOf c "name").isSome = true := by simp [h]
  simp [nameOf, valueOf_put_same c "name" _ h1, hk]

/-! ## The loops over the `contexts` sequence -/

theorem findContext_isSome (name : String) (cs : List Node) :
    (findContext name cs).isSome = true ↔ name ∈ cs.filterMap nameOf := by
  induction cs with
  | nil => simp [findContext]
  | cons c cs ih =>
    by_cases hc : nameOf c = some name
    · simp [findContext, hc, List.filterMap_cons]
    · cases hn : nameOf c with
      | none => simp [findContext, hn, List.filterMap_cons, ih]
      | some m =>
        have hm : ¬ m = name := fun h => hc (by rw [hn, h])
        have hm2 : ¬ name = m := fun h => hm h.symm
        simp [findContext, hn, List.filterMap_cons, ih, hm, hm2]

theorem checkContextExists_iff (root : Node) (name : String) :
    checkContextExists root name = true ↔ name ∈ contextNames root := by
  unfold checkContextExists contextNames contextsOf
  cases h : valueOf root "contexts" with
  | none => simp
  | some contexts =>
    by_cases hk : contexts.kind = Kind.SequenceNode
    · simp [hk, findContext_isSome]
    · simp [hk]

theorem checkContextExists_false_iff (root : Node) (name : String) :
    checkContextExists root name = false ↔ name ∉ contextNames root := by
  rw [← checkContextExists_iff]
  simp

theorem deleteFirst_some (name : String) (cs : List Node) :
    name ∈ cs.filterMap nameOf → ∃ cs1, deleteFirst name cs = some cs1 := by
  induction cs with
  | nil => simp
  | cons c cs ih =>
    intro h
    by_cases hc : nameOf c = some name
    · exact ⟨cs, by simp [deleteFirst, hc]⟩
    · have h2 : name ∈ cs.filterMap nameOf := by
        cases hn : nameOf c with
        | none => simpa [List.filterMap_cons, hn] using h
        | some m =>
          have hm : ¬ name = m := fun h => hc (by rw [hn, h])
          simpa [List.filterMap_cons, hn, hm] using h
      obtain ⟨cs1, h1⟩ := ih h2
      exact ⟨c :: cs1, by simp [deleteFirst, hc, h1]⟩

theorem deleteFirst_spec (name : String) (cs cs1 : List Node) :
    deleteFirst name cs = some cs1 →
      cs1.filterMap nameOf = (cs.filterMap nameOf).erase name ∧
      cs1.length + 1 = cs.length ∧ (∀ e ∈ cs1, e ∈ cs) := by
  induction cs generalizing cs1 with
  | nil => simp [deleteFirst]
  | cons c cs ih =>
    intro h
    by_cases hc : nameOf c = some name
    · simp only [deleteFirst, hc, if_true, Option.some.injEq] at h
      subst h
      refine ⟨by simp [List.filterMap_cons, hc], rfl, ?_⟩
      intro e he
      exact List.mem_cons_of_mem _ he
    · simp only [deleteFirst, hc, if_false] at h
      cases hd : deleteFirst name cs with
      | none => simp [hd] at h
      | some cs2 =>
        simp only [hd, Option.some.injEq] at h
        subst h
        obtain ⟨i1, i2, i3⟩ := ih cs2 hd
        refine ⟨?_, by simp [i2], ?_⟩
        · cases hn : nameOf c with
          | none => simp [List.filterMap_cons, hn, i1]
          | some m =>
            have hm : ¬ m = name := fun h => hc (by rw [hn, h])
            have hb : (m == name) = false := by simpa using hm
            simp [List.filterMap_cons, hn, i1, List.erase_cons, hb]
        · intro e he
          rcases List.mem_cons.1 he with h1 | h1
          · exact h1 ▸ List.mem_cons_self _ _
          · exact List.mem_cons_of_mem _ (i3 e h1)

theorem renameLoop_changed (old new : String) (cs cs1 : List Node) :
    renameLoop old new cs = Renamed.changed cs1 →
      cs1.length = cs.length ∧
      ∃ l1 l2, cs.filterMap nameOf = l1 ++ old :: l2 ∧ old ∉ l1 ∧
        cs1.filterMap nameOf = l1 ++ new :: l2 := by
  induction cs generalizing cs1 with
  | nil => simp [renameLoop]
  | cons c cs ih =>
    intro h
    unfold renameLoop at h
    cases hv : valueOf c "name" with
    | none => simp [hv] at h
    | some nameNode =>
      simp only [hv] at h
      by_cases hm : nameNode.kind = Kind.ScalarNode ∧ nameNode.value = old
      · simp only [hm, and_self, if_true, Renamed.changed.injEq] at h
        subst h
        have h1 : nameOf c = some old := by simp [nameOf, hv, hm.1, hm.2]
        have h2 := nameOf_put_name c nameNode new hv hm.1
        exact ⟨rfl, [], cs.filterMap nameOf, by simp [List.filterMap_cons, h1],
          by simp, by simp [List.filterMap_cons, h2]⟩
      · simp only [hm, if_false] at h
        cases hr : renameLoop old new cs with
        | nilDeref => simp [hr] at h
        | unchanged => simp [hr] at h
        | changed rest1 =>
          simp only [hr, Renamed.changed.injEq] at h
          subst h
          obtain ⟨i1, l1, l2, i2, i3, i4⟩ := ih rest1 hr
          refine ⟨by simp [i1], ?_⟩
          cases hn : nameOf c with
          | none =>
            exact ⟨l1, l2, by simp [List.filterMap_cons, hn, i2], i3,
              by simp [List.filterMap_cons, hn, i4]⟩
          | some m =>
            have hmo : m ≠ old := by
              intro hmo
              apply hm
              unfold nameOf at hn
              rw [hv] at hn
              by_cases hk : nameNode.kind = Kind.ScalarNode
              · simp only [hk, if_true, Option.some.injEq] at hn
                exact ⟨hk, hn.trans hmo⟩
              · simp [hk] at hn
            refine ⟨m :: l1, l2, by simp [List.filterMap_cons, hn, i2], ?_,
              by simp [List.filterMap_cons, hn, i4]⟩
            intro hmem
            rcases List.mem_cons.1 hmem with h1 | h1
            · exact hmo h1.symm
            · exact i3 h1

theorem renameLoop_found (old new : String) (cs : List Node)
    (hnamed : ∀ e ∈ cs, (valueOf e "name").isSome = true) :
    old ∈ cs.filterMap nameOf → ∃ cs1, renameLoop old new cs = Renamed.changed cs1 := by
  induction cs with
  | nil => simp
  | cons c cs ih =>
    intro h
    have hc := hnamed c (List.mem_cons_self _ _)
    cases hv : valueOf c "name" with
    | none => simp [hv] at hc
    | some nameNode =>
      by_cases hm : nameNode.kind = Kind.ScalarNode ∧ nameNode.value = old
      · exact ⟨putValue c "name" (nameNode.setValue new) :: cs, by simp [renameLoop, hv, hm]⟩
      · have hn : nameOf c ≠ some old := by
          intro hn
          apply hm
          unfold nameOf at hn
          rw [hv] at hn
          by_cases hk : nameNode.kind = Kind.ScalarNode
          · simp only [hk, if_true, Option.some.injEq] at hn
            exact ⟨hk, hn⟩
          · simp [hk] at hn
        have h2 : old ∈ cs.filterMap nameOf := by
          cases hn2 : nameOf c with
          | none => simpa [List.filterMap_cons, hn2] using h
          | some m =>
            have hmo : ¬ old = m := fun h => hn (by rw [hn2, h])
            simpa [List.filterMap_cons, hn2, hmo] using h
        obtain ⟨cs1, h1⟩ := ih (fun e he => hnamed e (List.mem_cons_of_mem _ he)) h2
        exact ⟨c :: cs1, by simp [renameLoop, hv, hm, h1]⟩

theorem renameLoop_absent (old new : String) (cs cs1 : List Node)
    (habs : old ∉ cs.filterMap nameOf) : renameLoop old new cs ≠ Renamed.changed cs1 := by
  intro h
  obtain ⟨_, l1, l2, h2, _, _⟩ := renameLoop_changed old new cs cs1 h
  apply habs
  rw [h2]
  simp

/-! ## The steps of `Run` -/

theorem savedDocs_append (c1 c2 : List Call) :
    savedDocs (c1 ++ c2) = savedDocs c1 ++ savedDocs c2 := by
  induction c1 with
  | nil => rfl
  | cons c cs ih => cases c <;> simp [savedDocs, ih]

theorem overwriteStep_absent (root : Node) (new : String)
    (h : checkContextExists root new = false) :
    overwriteStep root new = (root, none, [Call.checkContextExists new], []) := by
  simp [overwriteStep, h]

theorem overwriteStep_present (root : Node) (new : String)
    (h : checkContextExists root new = true) :
    ∃ contexts cs1, valueOf root "contexts" = some contexts ∧
      contexts.kind = Kind.SequenceNode ∧
      deleteFirst new contexts.content = some cs1 ∧
      overwriteStep root new =
        (putValue root "contexts" (contexts.setContent cs1), none,
          [Call.checkContextExists new, Call.printWarning new,
            Call.modifyDocToDeleteContext new], [Output.warning new]) := by
  have hmem := (checkContextExists_iff root new).1 h
  unfold contextNames contextsOf at hmem
  cases hv : valueOf root "contexts" with
  | none => simp [hv] at hmem
  | some contexts =>
    by_cases hk : contexts.kind = Kind.SequenceNode
    · simp only [hv, hk, if_true] at hmem
      obtain ⟨cs1, h1⟩ := deleteFirst_some new contexts.content hmem
      exact ⟨contexts, cs1, rfl, hk, h1, by
        simp [overwriteStep, h, modifyDocToDeleteContext, hv, hk, h1]⟩
    · simp [hv, hk] at hmem

theorem overwriteStep_eq (root : Node) (new : String) :
    overwriteStep root new =
      ((overwriteStep root new).1, none, (overwriteStep root new).2.2.1,
        (overwriteStep root new).2.2.2) := by
  cases h : checkContextExists root new with
  | false => rw [overwriteStep_absent root new h]
  | true =>
    obtain ⟨contexts, cs1, _, _, _, h4⟩ := overwriteStep_present root new h
    rw [h4]

theorem overwriteStep_saved (root : Node) (new : String) :
    savedDocs (overwriteStep root new).2.2.1 = [] := by
  cases h : checkContextExists root new with
  | false => rw [overwriteStep_absent root new h]; rfl
  | true =>
    obtain ⟨contexts, cs1, _, _, _, h4⟩ := overwriteStep_present root new h
    rw [h4]; rfl

theorem overwriteStep_cur (root : Node) (new : String) :
    getCurrentContext (overwriteStep root new).1 = getCurrentContext root := by
  cases h : checkContextExists root new with
  | false => rw [overwriteStep_absent root new h]
  | true =>
    obtain ⟨contexts, cs1, _, _, _, h4⟩ := overwriteStep_present root new h
    rw [h4]
    exact getCurrentContext_put_contexts root _

theorem overwriteStep_names (root : Node) (new : String) :
    contextNames (overwriteStep root new).1 = (contextNames root).erase new := by
  cases h : checkContextExists root new with
  | false =>
    rw [overwriteStep_absent root new h]
    exact (List.erase_of_not_mem ((checkContextExists_false_iff root new).1 h)).symm
  | true =>
    obtain ⟨contexts, cs1, h1, h2, h3, h4⟩ := overwriteStep_present root new h
    rw [h4]
    simp only [contextNames, contextsOf_put_contexts root contexts cs1 h1 h2,
      contextsOf_eq root contexts h1 h2]
    exact (deleteFirst_spec new _ _ h3).1

theorem overwriteStep_length (root : Node) (new : String)
    (h : checkContextExists root new = true) :
    (contextsOf (overwriteStep root new).1).length + 1 = (contextsOf root).length := by
  obtain ⟨contexts, cs1, h1, h2, h3, h4⟩ := overwriteStep_present root new h
  rw [h4]
  simp only [contextsOf_put_contexts root contexts cs1 h1 h2, contextsOf_eq root contexts h1 h2]
  exact (deleteFirst_spec new _ _ h3).2.1

theorem overwriteStep_named (root : Node) (new : String) (hn : AllNamed root) :
    AllNamed (overwriteStep root new).1 := by
  cases h : checkContextExists root new with
  | false => rw [overwriteStep_absent root new h]; exact hn
  | true =>
    obtain ⟨contexts, cs1, h1, h2, h3, h4⟩ := overwriteStep_present root new h
    rw [h4]
    intro e he
    rw [contextsOf_put_contexts root contexts cs1 h1 h2] at he
    apply hn
    rw [contextsOf_eq root contexts h1 h2]
    exact (deleteFirst_spec new _ _ h3).2.2 e he

theorem modifyContextName_ok (root : Node) (old new : String)
    (h : (modifyContextName root old new).outcome = Outcome.ok) :
    ∃ contexts cs1, valueOf root "contexts" = some contexts ∧
      contexts.kind = Kind.SequenceNode ∧
      renameLoop old new contexts.content = Renamed.changed cs1 ∧
      (modifyContextName root old new).root =
        putValue root "contexts" (contexts.setContent cs1) := by
  unfold modifyContextName at h ⊢
  by_cases hr : root.kind = Kind.MappingNode
  · cases hv : valueOf root "contexts" with
    | none => simp [hr, hv] at h
    | some contexts =>
      by_cases hk : contexts.kind = Kind.SequenceNode
      · cases hl : renameLoop old new contexts.content with
        | nilDeref => simp [hr, hv, hk, hl] at h
        | unchanged => simp [hr, hv, hk, hl] at h
        | changed cs1 => exact ⟨contexts, cs1, rfl, hk, hl, by simp [hr, hk, hl]⟩
      · simp [hr, hv, hk] at h
  · simp [hr] at h

theorem modifyContextName_found (root : Node) (old new : String) (hn : AllNamed root)
    (h : old ∈ contextNames root) :
    (modifyContextName root old new).outcome = Outcome.ok := by
  unfold contextNames contextsOf at h
  cases hv : valueOf root "contexts" with
  | none => simp [hv] at h
  | some contexts =>
    by_cases hk : contexts.kind = Kind.SequenceNode
    · simp only [hv, hk, if_true] at h
      have hr : root.kind = Kind.MappingNode := by
        by_contra hr
        simp [valueOf, hr] at hv
      have hn2 : ∀ e ∈ contexts.content, (valueOf e "name").isSome = true := by
        intro e he
        apply hn
        rw [contextsOf_eq root contexts hv hk]
        exact he
      obtain ⟨cs1, h1⟩ := renameLoop_found old new contexts.content hn2 h
      simp [modifyContextName, hr, hv, hk, h1]
    · simp [hv, hk] at h

theorem pointerStep_eq (root : Node) (new cur : String) :
    pointerStep root new cur = ((pointerStep root new cur).1, none, (pointerStep root new cur).2.2) := by
  unfold pointerStep modifyCurrentContext
  by_cases h : new = cur
  · cases hv : valueOf root "current-context" with
    | none => simp [h]
    | some v => by_cases hk : v.kind = Kind.ScalarNode <;> simp [h, hk]
  · simp [h]

theorem pointerStep_saved (root : Node) (new cur : String) :
    savedDocs (pointerStep root new cur).2.2 = [] := by
  unfold pointerStep
  by_cases h : new = cur <;> simp [h, savedDocs]

theorem pointerStep_contexts (root : Node) (new cur : String) :
    contextsOf (pointerStep root new cur).1 = contextsOf root := by
  unfold pointerStep modifyCurrentContext
  by_cases h : new = cur
  · cases hv : valueOf root "current-context" with
    | none => simp [h]
    | some v =>
      by_cases hk : v.kind = Kind.ScalarNode
      · simp [h, hk, contextsOf_put_current]
      · simp [h, hk]
  · simp [h]

theorem pointerStep_cur (root : Node) (new : String) :
    getCurrentContext (pointerStep root new (getCurrentContext root)).1 =
      getCurrentContext root := by
  unfold pointerStep modifyCurrentContext
  by_cases h : new = getCurrentContext root
  · cases hv : valueOf root "current-context" with
    | none => simp [h, hv]
    | some v =>
      by_cases hk : v.kind = Kind.ScalarNode
      · have h1 : (valueOf root "current-context").isSome = true := by simp [hv]
        have h2 : getCurrentContext root = v.value := by simp [getCurrentContext, hv, hk]
        subst h
        rw [h2]
        simp [hv, hk, Node.setValue_self, putValue_self root _ v hv, h2]
      · simp [h, hv, hk]
  · simp [h]

/-! ## The paths through `Run` -/

theorem Run_missing (op : RenameOp) (env : Env) (root : Node)
    (hopen : env.openKubeconfig = Except.ok root)
    (h : checkContextExists root (sourceName op root) = false) :
    Run op env = ⟨Outcome.error (Err.contextNotFound (sourceName op root)), some root,
      [Call.openKubeconfig, Call.getCurrentContext,
        Call.checkContextExists (sourceName op root)], []⟩ := by
  unfold sourceName at h
  simp [Run, hopen, sourceName, h]

theorem Run_not_renamed (op : RenameOp) (env : Env) (root : Node)
    (hopen : env.openKubeconfig = Except.ok root)
    (hex : checkContextExists root (sourceName op root) = true)
    (hm : (modifyContextName (overwriteStep root op.New).1 (sourceName op root) op.New).outcome
      ≠ Outcome.ok) :
    (Run op env).root =
        some (modifyContextName (overwriteStep root op.New).1 (sourceName op root) op.New).root ∧
      savedDocs (Run op env).calls = [] ∧ (Run op env).outcome ≠ Outcome.ok := by
  unfold sourceName at hex hm
  unfold Run
  simp only [hopen, hex]
  rw [overwriteStep_eq root op.New]
  simp only [sourceName, Bool.true_eq_false, if_false]
  generalize hM : modifyContextName (overwriteStep root op.New).1
    (if op.Old = "." then getCurrentContext root else op.Old) op.New = m at hm
  cases ho : m.outcome with
  | ok => exact absurd ho hm
  | panic => simp [savedDocs_append, savedDocs, overwriteStep_saved]
  | error e => simp [savedDocs_append, savedDocs, overwriteStep_saved]

theorem Run_renamed (op : RenameOp) (env : Env) (root : Node)
    (hopen : env.openKubeconfig = Except.ok root)
    (hex : checkContextExists root (sourceName op root) = true)
    (hm : (modifyContextName (overwriteStep root op.New).1 (sourceName op root) op.New).outcome
      = Outcome.ok) :
    (Run op env).root =
        some (pointerStep
          (modifyContextName (overwriteStep root op.New).1 (sourceName op root) op.New).root
          op.New (getCurrentContext root)).1 ∧
      savedDocs (Run op env).calls = [(pointerStep
          (modifyContextName (overwriteStep root op.New).1 (sourceName op root) op.New).root
          op.New (getCurrentContext root)).1] ∧
      (Run op env).outcome = (match env.saveKubeconfigRaw (pointerStep
          (modifyContextName (overwriteStep root op.New).1 (sourceName op root) op.New).root
          op.New (getCurrentContext root)).1 with
        | some e => Outcome.error (Err.wrapSave e)
        | none => Outcome.ok) := by
  unfold sourceName at hex hm
  unfold Run
  simp only [hopen, hex]
  rw [overwriteStep_eq root op.New]
  simp only [sourceName, Bool.true_eq_false, if_false]
  generalize hM : modifyContextName (overwriteStep root op.New).1
    (if op.Old = "." then getCurrentContext root else op.Old) op.New = m at hm
  simp only [hm]
  rw [pointerStep_eq m.root op.New (getCurrentContext root)]
  simp only []
  cases hs : env.saveKubeconfigRaw (pointerStep m.root op.New (getCurrentContext root)).1 with
  | none => simp [savedDocs_append, savedDocs, overwriteStep_saved, pointerStep_saved]
  | some e => simp [savedDocs_append, savedDocs, overwriteStep_saved, pointerStep_saved]

theorem rename_effect (root : Node) (old new : String)
    (h : (modifyContextName root old new).outcome = Outcome.ok) :
    (contextsOf (modifyContextName root old new).root).length = (contextsOf root).length ∧
      getCurrentContext (modifyContextName root old new).root = getCurrentContext root ∧
      ∃ l1 l2, contextNames root = l1 ++ old :: l2 ∧ old ∉ l1 ∧
        contextNames (modifyContextName root old new).root = l1 ++ new :: l2 := by
  obtain ⟨contexts, cs1, h1, h2, h3, h4⟩ := modifyContextName_ok root old new h
  obtain ⟨i1, i2⟩ := renameLoop_changed old new _ _ h3
  rw [h4]
  simp only [contextNames, contextsOf_put_contexts root contexts cs1 h1 h2,
    contextsOf_eq root contexts h1 h2, getCurrentContext_put_contexts]
  exact ⟨i1, trivial, i2⟩

theorem contextsOf_kubeconfig (names : List String) (cur : String) :
    contextsOf (kubeconfig names cur) = names.map ctx := rfl

theorem allNamed_kubeconfig (names : List String) (cur : String) :
    AllNamed (kubeconfig names cur) := by
  intro e he
  rw [contextsOf_kubeconfig] at he
  obtain ⟨n, _, hn⟩ := List.mem_map.1 he
  subst hn
  rfl

/-! ## The claims -/

/-- C1, as the code runs it: on `contexts = [a, b]`, `current-context = a`, the
rename of `a` to `z` succeeds and renames the entry, yet `current-context` is
still `a`, not the new name `z`. -/
theorem run_rename_current_keeps_old_pointer :
    getCurrentContext (kubeconfig ["a", "b"] "a") = "a" ∧
    checkContextExists (kubeconfig ["a", "b"] "a") "a" = true ∧
    (Run ⟨"z", "a"⟩ (envOf (kubeconfig ["a", "b"] "a"))).outcome = Outcome.ok ∧
    (Run ⟨"z", "a"⟩ (envOf (kubeconfig ["a", "b"] "a"))).root
      = some (kubeconfig ["z", "b"] "a") ∧
    getCurrentContext (kubeconfig ["z", "b"] "a") = "a" ∧
    getCurrentContext (kubeconfig ["z", "b"] "a") ≠ "z" :=
  ⟨rfl, rfl, rfl, rfl, rfl, by decide⟩

/-- C2 fails as stated: in `contexts = [a, a]` the source `a` exists and the
target `z` does not, the rename succeeds, and one entry is still named `a`. -/
theorem run_fresh_target_duplicate_source :
    checkContextExists (kubeconfig ["a", "a"] "") "a" = true ∧
    checkContextExists (kubeconfig ["a", "a"] "") "z" = false ∧
    (Run ⟨"z", "a"⟩ (envOf (kubeconfig ["a", "a"] ""))).outcome = Outcome.ok ∧
    (Run ⟨"z", "a"⟩ (envOf (kubeconfig ["a", "a"] ""))).root
      = some (kubeconfig ["z", "a"] "") ∧
    "a" ≠ "z" ∧
    (contextNames (kubeconfig ["z", "a"] "")).count "a" = 1 :=
  ⟨rfl, rfl, rfl, rfl, by decide, by decide⟩

/-- C2, amended: when every context entry carries a `name` child, exactly one
entry is named the source name and none the target name, `Run` leaves a tree
(the one it hands to the saver) in which exactly one entry is named the target
name, none the source name, and the number of entries is unchanged. -/
theorem run_fresh_target (op : RenameOp) (env : Env) (root : Node)
    (hopen : env.openKubeconfig = Except.ok root)
    (hnamed : AllNamed root)
    (hsrc : (contextNames root).count (sourceName op root) = 1)
    (htgt : checkContextExists root op.New = false) :
    ∃ root1, (Run op env).root = some root1 ∧
      savedDocs (Run op env).calls = [root1] ∧
      (contextNames root1).count op.New = 1 ∧
      (contextNames root1).count (sourceName op root) = 0 ∧
      (contextsOf root1).length = (contextsOf root).length := by
  have hmem : sourceName op root ∈ contextNames root :=
    List.count_pos_iff.1 (by omega)
  have hex := (checkContextExists_iff root _).2 hmem
  have hnew : op.New ∉ contextNames root := (checkContextExists_false_iff root _).1 htgt
  have hne : sourceName op root ≠ op.New := fun h => hnew (h ▸ hmem)
  have ho : (overwriteStep root op.New).1 = root := by rw [overwriteStep_absent root _ htgt]
  have hm := modifyContextName_found root (sourceName op root) op.New hnamed hmem
  have hrun := Run_renamed op env root hopen hex (by rw [ho]; exact hm)
  rw [ho] at hrun
  obtain ⟨r1, r2, _⟩ := hrun
  obtain ⟨e1, _, l1, l2, e3, e4, e5⟩ := rename_effect root (sourceName op root) op.New hm
  refine ⟨_, r1, r2, ?_, ?_, ?_⟩
  · simp only [contextNames, pointerStep_contexts]
    rw [← contextNames, e5]
    rw [e3] at hnew
    have a1 : op.New ∉ l1 := fun h => hnew (by simp [h])
    have a2 : op.New ∉ l2 := fun h => hnew (by simp [h])
    simp [List.count_append, List.count_cons, List.count_eq_zero_of_not_mem a1,
      List.count_eq_zero_of_not_mem a2]
  · simp only [contextNames, pointerStep_contexts]
    rw [← contextNames, e5]
    rw [e3] at hsrc
    have hne2 : op.New ≠ sourceName op root := fun h => hne h.symm
    have b1 : (sourceName op root) ∉ l2 := by
      intro h
      have := List.count_pos_iff.2 h
      simp [List.count_append, List.count_cons] at hsrc
      omega
    simp [List.count_append, List.count_cons, List.count_eq_zero_of_not_mem e4,
      List.count_eq_zero_of_not_mem b1, hne2]
  · rw [pointerStep_contexts]
    exact e1

/-- Witness of `run_fresh_target`: scenario A, `contexts = [a, b]`, rename of
`a` to `z`. -/
theorem run_fresh_target_witness :
    AllNamed (kubeconfig ["a", "b"] "a") ∧
    (contextNames (kubeconfig ["a", "b"] "a")).count "a" = 1 ∧
    checkContextExists (kubeconfig ["a", "b"] "a") "z" = false ∧
    ∃ root1, (Run ⟨"z", "a"⟩ (envOf (kubeconfig ["a", "b"] "a"))).root = some root1 ∧
      savedDocs (Run ⟨"z", "a"⟩ (envOf (kubeconfig ["a", "b"] "a"))).calls = [root1] ∧
      (contextNames root1).count "z" = 1 ∧
      (contextNames root1).count "a" = 0 ∧
      (contextsOf root1).length = (contextsOf (kubeconfig ["a", "b"] "a")).length :=
  ⟨allNamed_kubeconfig _ _, by decide, rfl,
    run_fresh_target ⟨"z", "a"⟩ (envOf (kubeconfig ["a", "b"] "a"))
      (kubeconfig ["a", "b"] "a") rfl (allNamed_kubeconfig _ _) (by decide) rfl⟩

/-- C3, as the code runs it: on `contexts = [a, b]`, `current-context = a`
(a pointer that names an existing context), the rename of `a` to `z` succeeds
and leaves `current-context = a`, which is not empty and names no context of
the resulting document. -/
theorem run_leaves_dangling_pointer :
    checkContextExists (kubeconfig ["a", "b"] "a")
      (getCurrentContext (kubeconfig ["a", "b"] "a")) = true ∧
    (Run ⟨"z", "a"⟩ (envOf (kubeconfig ["a", "b"] "a"))).outcome = Outcome.ok ∧
    savedDocs (Run ⟨"z", "a"⟩ (envOf (kubeconfig ["a", "b"] "a"))).calls
      = [kubeconfig ["z", "b"] "a"] ∧
    contextNames (kubeconfig ["z", "b"] "a") = ["z", "b"] ∧
    getCurrentContext (kubeconfig ["z", "b"] "a") ≠ "" ∧
    checkContextExists (kubeconfig ["z", "b"] "a")
      (getCurrentContext (kubeconfig ["z", "b"] "a")) = false :=
  ⟨rfl, rfl, rfl, rfl, by decide, rfl⟩

/-- C4: when the resolved source name does not exist among the contexts, `Run`
returns the context-not-found error, the tree in memory is the loaded one, no
call that mutates the tree is made and the saver is never invoked. -/
theorem run_source_missing (op : RenameOp) (env : Env) (root : Node)
    (hopen : env.openKubeconfig = Except.ok root)
    (hsrc : checkContextExists root (sourceName op root) = false) :
    (Run op env).outcome = Outcome.error (Err.contextNotFound (sourceName op root)) ∧
      (Run op env).root = some root ∧
      (∀ c ∈ (Run op env).calls, c.mutates = false) ∧
      savedDocs (Run op env).calls = [] := by
  rw [Run_missing op env root hopen hsrc]
  refine ⟨rfl, rfl, ?_, rfl⟩
  intro c hc
  simp only [List.mem_cons, List.mem_singleton, List.not_mem_nil, or_false] at hc
  rcases hc with h | h | h <;> subst h <;> rfl

/-- Witness of `run_source_missing`: scenario D, `contexts = [a]`, rename of
`missing` to `q`. -/
theorem run_source_missing_witness :
    checkContextExists (kubeconfig ["a"] "a")
      (sourceName ⟨"q", "missing"⟩ (kubeconfig ["a"] "a")) = false ∧
    (Run ⟨"q", "missing"⟩ (envOf (kubeconfig ["a"] "a"))).outcome
      = Outcome.error (Err.contextNotFound "missing") ∧
    (Run ⟨"q", "missing"⟩ (envOf (kubeconfig ["a"] "a"))).root = some (kubeconfig ["a"] "a") ∧
    (∀ c ∈ (Run ⟨"q", "missing"⟩ (envOf (kubeconfig ["a"] "a"))).calls, c.mutates = false) ∧
    savedDocs (Run ⟨"q", "missing"⟩ (envOf (kubeconfig ["a"] "a"))).calls = [] :=
  ⟨rfl, run_source_missing ⟨"q", "missing"⟩ (envOf (kubeconfig ["a"] "a"))
    (kubeconfig ["a"] "a") rfl rfl⟩

/-- C5 fails as stated: in `contexts = [a]` the source `a` and the target `a`
both exist; `Run` deletes the entry, fails in the rename step, and no entry is
named `a` afterwards. -/
theorem run_overwrite_self_loses_target :
    checkContextExists (kubeconfig ["a"] "a") "a" = true ∧
    (Run ⟨"a", "a"⟩ (envOf (kubeconfig ["a"] "a"))).outcome
      = Outcome.error (Err.wrapRename Err.noChanges) ∧
    (Run ⟨"a", "a"⟩ (envOf (kubeconfig ["a"] "a"))).root = some (kubeconfig [] "a") ∧
    (contextNames (kubeconfig [] "a")).count "a" = 0 :=
  ⟨rfl, rfl, rfl, rfl⟩

/-- C5, amended: when every context entry carries a `name` child, the source
name exists, the target name is a different name carried by exactly one entry,
`Run` leaves a tree (the one it hands to the saver) with exactly one entry
fewer, in which exactly one entry is named the target name. -/
theorem run_overwrite (op : RenameOp) (env : Env) (root : Node)
    (hopen : env.openKubeconfig = Except.ok root)
    (hnamed : AllNamed root)
    (hsrc : checkContextExists root (sourceName op root) = true)
    (htgt : (contextNames root).count op.New = 1)
    (hne : sourceName op root ≠ op.New) :
    ∃ root1, (Run op env).root = some root1 ∧
      savedDocs (Run op env).calls = [root1] ∧
      (contextsOf root1).length + 1 = (contextsOf root).length ∧
      (contextNames root1).count op.New = 1 := by
  have hmem : sourceName op root ∈ contextNames root := (checkContextExists_iff root _).1 hsrc
  have hnew : op.New ∈ contextNames root := List.count_pos_iff.1 (by omega)
  have hex := (checkContextExists_iff root _).2 hnew
  have hn1 := overwriteStep_named root op.New hnamed
  have hnames := overwriteStep_names root op.New
  have hmem1 : sourceName op root ∈ contextNames (overwriteStep root op.New).1 := by
    rw [hnames]
    exact (List.mem_erase_of_ne hne).2 hmem
  have hcount : (contextNames (overwriteStep root op.New).1).count op.New = 0 := by
    rw [hnames, List.count_erase_self, htgt]
  have hm := modifyContextName_found _ (sourceName op root) op.New hn1 hmem1
  obtain ⟨r1, r2, _⟩ := Run_renamed op env root hopen hsrc hm
  obtain ⟨e1, _, l1, l2, e3, e4, e5⟩ := rename_effect _ (sourceName op root) op.New hm
  refine ⟨_, r1, r2, ?_, ?_⟩
  · rw [pointerStep_contexts, e1]
    exact overwriteStep_length root op.New hex
  · simp only [contextNames, pointerStep_contexts]
    rw [← contextNames, e5]
    rw [e3] at hcount
    simp only [List.count_append, List.count_cons] at hcount ⊢
    have hb : (sourceName op root == op.New) = false := by simpa using hne
    simp only [hb] at hcount
    simp
    omega

/-- Witness of `run_overwrite`: scenario B, `contexts = [a, b]`,
`current-context = b`, rename of `a` to `b`. -/
theorem run_overwrite_witness :
    AllNamed (kubeconfig ["a", "b"] "b") ∧
    checkContextExists (kubeconfig ["a", "b"] "b") "a" = true ∧
    (contextNames (kubeconfig ["a", "b"] "b")).count "b" = 1 ∧
    "a" ≠ "b" ∧
    ∃ root1, (Run ⟨"b", "a"⟩ (envOf (kubeconfig ["a", "b"] "b"))).root = some root1 ∧
      savedDocs (Run ⟨"b", "a"⟩ (envOf (kubeconfig ["a", "b"] "b"))).calls = [root1] ∧
      (contextsOf root1).length + 1 = (contextsOf (kubeconfig ["a", "b"] "b")).length ∧
      (contextNames root1).count "b" = 1 :=
  ⟨allNamed_kubeconfig _ _, rfl, by decide, by decide,
    run_overwrite ⟨"b", "a"⟩ (envOf (kubeconfig ["a", "b"] "b"))
      (kubeconfig ["a", "b"] "b") rfl (allNamed_kubeconfig _ _) rfl (by decide) (by decide)⟩

/-- C6: after a successful `Run` on a loaded document, `current-context` equals
the target name when the value captured before any mutation equals the target
name, and is the captured value otherwise, whatever the source name is. -/
theorem run_pointer_update_rule (op : RenameOp) (env : Env) (root : Node)
    (hopen : env.openKubeconfig = Except.ok root)
    (hok : (Run op env).outcome = Outcome.ok) :
    ∃ root1, (Run op env).root = some root1 ∧
      (getCurrentContext root = op.New → getCurrentContext root1 = op.New) ∧
      (getCurrentContext root ≠ op.New →
        getCurrentContext root1 = getCurrentContext root) := by
  cases hex : checkContextExists root (sourceName op root) with
  | false =>
    rw [Run_missing op env root hopen hex] at hok
    simp at hok
  | true =>
    by_cases hm : (modifyContextName (overwriteStep root op.New).1 (sourceName op root)
        op.New).outcome = Outcome.ok
    · obtain ⟨r1, _, _⟩ := Run_renamed op env root hopen hex hm
      obtain ⟨_, e2, _⟩ := rename_effect _ (sourceName op root) op.New hm
      have hcur : getCurrentContext (modifyContextName (overwriteStep root op.New).1
          (sourceName op root) op.New).root = getCurrentContext root := by
        rw [e2, overwriteStep_cur]
      have hfin := pointerStep_cur (modifyContextName (overwriteStep root op.New).1
          (sourceName op root) op.New).root op.New
      rw [hcur] at hfin
      refine ⟨_, r1, ?_, ?_⟩
      · intro h
        rw [hfin, h]
      · intro _
        exact hfin
    · exact absurd hok (Run_not_renamed op env root hopen hex hm).2.2

/-- Witness of `run_pointer_update_rule`: scenario B, `contexts = [a, b]`,
`current-context = b`, rename of `a` to `b`. -/
theorem run_pointer_update_rule_witness :
    (Run ⟨"b", "a"⟩ (envOf (kubeconfig ["a", "b"] "b"))).outcome = Outcome.ok ∧
    ∃ root1, (Run ⟨"b", "a"⟩ (envOf (kubeconfig ["a", "b"] "b"))).root = some root1 ∧
      (getCurrentContext (kubeconfig ["a", "b"] "b") = "b" → getCurrentContext root1 = "b") ∧
      (getCurrentContext (kubeconfig ["a", "b"] "b") ≠ "b" →
        getCurrentContext root1 = getCurrentContext (kubeconfig ["a", "b"] "b")) :=
  ⟨rfl, run_pointer_update_rule ⟨"b", "a"⟩ (envOf (kubeconfig ["a", "b"] "b"))
    (kubeconfig ["a", "b"] "b") rfl rfl⟩

/-- C7: when the context names of the loaded document are pairwise distinct,
every document `Run` hands to the saver has pairwise distinct context names,
for every source and target name. -/
theorem run_saves_distinct_names (op : RenameOp) (env : Env) (root : Node)
    (hopen : env.openKubeconfig = Except.ok root)
    (hnodup : (contextNames root).Nodup) :
    ∀ doc ∈ savedDocs (Run op env).calls, (contextNames doc).Nodup := by
  intro doc hdoc
  cases hex : checkContextExists root (sourceName op root) with
  | false =>
    rw [Run_missing op env root hopen hex] at hdoc
    simp [savedDocs] at hdoc
  | true =>
    by_cases hm : (modifyContextName (overwriteStep root op.New).1 (sourceName op root)
        op.New).outcome = Outcome.ok
    · obtain ⟨_, r2, _⟩ := Run_renamed op env root hopen hex hm
      obtain ⟨_, _, l1, l2, e3, _, e5⟩ := rename_effect _ (sourceName op root) op.New hm
      rw [r2, List.mem_singleton] at hdoc
      subst hdoc
      simp only [contextNames, pointerStep_contexts]
      rw [← contextNames, e5]
      have hnames := overwriteStep_names root op.New
      have hnd : (l1 ++ sourceName op root :: l2).Nodup := by
        rw [← e3, hnames]
        exact hnodup.erase _
      have hnew : op.New ∉ l1 ++ sourceName op root :: l2 := by
        rw [← e3, hnames]
        exact hnodup.not_mem_erase
      rw [List.nodup_middle, List.nodup_cons] at hnd ⊢
      refine ⟨?_, hnd.2⟩
      intro h
      apply hnew
      rcases List.mem_append.1 h with h1 | h1
      · exact List.mem_append_left _ h1
      · exact List.mem_append_right _ (List.mem_cons_of_mem _ h1)
    · rw [(Run_not_renamed op env root hopen hex hm).2.1] at hdoc
      simp at hdoc

/-- Witness of `run_saves_distinct_names`: `contexts = [a, b]`, rename of `a`
to `b` (the overwrite case); the saved document is `contexts = [b]`. -/
theorem run_saves_distinct_names_witness :
    (contextNames (kubeconfig ["a", "b"] "b")).Nodup ∧
    savedDocs (Run ⟨"b", "a"⟩ (envOf (kubeconfig ["a", "b"] "b"))).calls
      = [kubeconfig ["b"] "b"] ∧
    ∀ doc ∈ savedDocs (Run ⟨"b", "a"⟩ (envOf (kubeconfig ["a", "b"] "b"))).calls,
      (contextNames doc).Nodup :=
  ⟨by decide, rfl,
    run_saves_distinct_names ⟨"b", "a"⟩ (envOf (kubeconfig ["a", "b"] "b"))
      (kubeconfig ["a", "b"] "b") rfl (by decide)⟩

/-- C8: on every loaded document and for every target name and saver, `Run`
with `Old = "."` is the same execution (result, final tree, calls, output) as
`Run` with `Old` set to the `current-context` value of the loaded document. -/
theorem run_sentinel_resolution (new : String) (root : Node) (save : Node → Option Err) :
    Run ⟨new, "."⟩ ⟨Except.ok root, save⟩
      = Run ⟨new, getCurrentContext root⟩ ⟨Except.ok root, save⟩ := by
  simp [Run]

/-- C9, as the code runs it: when `openKubeconfig` fails, `Run` returns `nil`
for every request, although no document was loaded and nothing was saved. -/
theorem run_load_failure_returns_nil (op : RenameOp) (e : Err) (save : Node → Option Err) :
    (Run op ⟨Except.error e, save⟩).outcome = Outcome.ok ∧
      (Run op ⟨Except.error e, save⟩).root = none ∧
      savedDocs (Run op ⟨Except.error e, save⟩).calls = [] :=
  ⟨rfl, rfl, rfl⟩

/-- C10: when `modifyContextName` returns an error, the tree it leaves behind
is the tree it was given. -/
theorem modifyContextName_error_keeps_tree (root : Node) (old new : String) (e : Err)
    (h : (modifyContextName root old new).outcome = Outcome.error e) :
    (modifyContextName root old new).root = root := by
  by_cases hr : root.kind = Kind.MappingNode
  · cases hv : valueOf root "contexts" with
    | none => simp [modifyContextName, hr, hv]
    | some contexts =>
      by_cases hk : contexts.kind = Kind.SequenceNode
      · cases hl : renameLoop old new contexts.content with
        | nilDeref => simp [modifyContextName, hr, hv, hk, hl]
        | unchanged => simp [modifyContextName, hr, hv, hk, hl]
        | changed cs1 => simp [modifyContextName, hr, hv, hk, hl] at h
      · simp [modifyContextName, hr, hv, hk]
  · simp [modifyContextName, hr]

/-- Witness of `modifyContextName_error_keeps_tree`: `contexts = [a]`, rename
of the absent name `missing` to `q`. -/
theorem modifyContextName_error_keeps_tree_witness :
    (modifyContextName (kubeconfig ["a"] "a") "missing" "q").outcome
      = Outcome.error Err.noChanges ∧
    (modifyContextName (kubeconfig ["a"] "a") "missing" "q").root = kubeconfig ["a"] "a" :=
  ⟨rfl, modifyContextName_error_keeps_tree (kubeconfig ["a"] "a") "missing" "q"
    Err.noChanges rfl⟩

/-! ## Totality and frame of `modifyContextName` -/

theorem Node.setContent_eq (n : Node) (c : List Node) :
    n.setContent c = Node.mk n.kind n.value n.fmt c := by
  cases n; rfl

theorem Node.setValue_eq (n : Node) (v : String) :
    n.setValue v = Node.mk n.kind v n.fmt n.content := by
  cases n; rfl

theorem valueOfList_split (key : String) (v : Node) (l : List Node) :
    valueOfList l key = some v →
      ∃ pre k post, l = pre ++ k :: v :: post ∧ pre.length % 2 = 0 ∧
        valueOfList pre key = none ∧ k.kind = Kind.ScalarNode ∧ k.value = key ∧
        ∀ w, putValueList l key w = pre ++ k :: w :: post := by
  induction l using pairs_induction with
  | h0 => simp [valueOfList]
  | h1 a => simp [valueOfList]
  | h2 k w rest ih =>
    intro h
    by_cases hk : k.kind = Kind.ScalarNode ∧ k.value = key
    · simp only [valueOfList, hk, and_self, if_true, Option.some.injEq] at h
      subst h
      exact ⟨[], k, rest, rfl, rfl, by simp [valueOfList], hk.1, hk.2,
        fun u => by simp [putValueList, hk]⟩
    · simp only [valueOfList, hk, if_false] at h
      obtain ⟨pre, k2, post, e1, e2, e3, e4, e5, e6⟩ := ih h
      refine ⟨k :: w :: pre, k2, post, by simp [e1], by simp only [List.length_cons]; omega,
        ?_, e4, e5, ?_⟩
      · simp [valueOfList, hk, e3]
      · intro u
        simp [putValueList, hk, e6 u]

theorem valueOf_split (n : Node) (key : String) (v : Node) (h : valueOf n key = some v) :
    n.kind = Kind.MappingNode ∧
      ∃ pre k post, n.content = pre ++ k :: v :: post ∧ pre.length % 2 = 0 ∧
        valueOfList pre key = none ∧ k.kind = Kind.ScalarNode ∧ k.value = key ∧
        ∀ w, putValue n key w = Node.mk n.kind n.value n.fmt (pre ++ k :: w :: post) := by
  unfold valueOf at h
  by_cases hk : n.kind = Kind.MappingNode
  · simp only [hk, if_true] at h
    obtain ⟨pre, k, post, e1, e2, e3, e4, e5, e6⟩ := valueOfList_split key v _ h
    refine ⟨hk, pre, k, post, e1, e2, e3, e4, e5, ?_⟩
    intro w
    simp only [putValue, hk, if_true, e6 w, Node.setContent_eq]
  · simp [hk] at h

theorem renameLoop_split (old new : String) (cs cs1 : List Node) :
    renameLoop old new cs = Renamed.changed cs1 →
      ∃ before entry after nameNode, cs = before ++ entry :: after ∧
        (∀ e ∈ before, nameOf e ≠ some old) ∧
        valueOf entry "name" = some nameNode ∧
        nameNode.kind = Kind.ScalarNode ∧ nameNode.value = old ∧
        cs1 = before ++ putValue entry "name" (nameNode.setValue new) :: after := by
  induction cs generalizing cs1 with
  | nil => simp [renameLoop]
  | cons c cs ih =>
    intro h
    unfold renameLoop at h
    cases hv : valueOf c "name" with
    | none => simp [hv] at h
    | some nameNode =>
      simp only [hv] at h
      by_cases hm : nameNode.kind = Kind.ScalarNode ∧ nameNode.value = old
      · simp only [hm, and_self, if_true, Renamed.changed.injEq] at h
        exact ⟨[], c, cs, nameNode, rfl, by simp, hv, hm.1, hm.2, by simp [← h]⟩
      · simp only [hm, if_false] at h
        cases hr : renameLoop old new cs with
        | nilDeref => simp [hr] at h
        | unchanged => simp [hr] at h
        | changed rest1 =>
          simp only [hr, Renamed.changed.injEq] at h
          obtain ⟨before, entry, after, nn, e1, e2, e3, e4, e5, e6⟩ := ih rest1 hr
          refine ⟨c :: before, entry, after, nn, by simp [e1], ?_, e3, e4, e5,
            by simp [← h, e6]⟩
          intro e he
          rcases List.mem_cons.1 he with h1 | h1
          · subst h1
            intro hn
            apply hm
            unfold nameOf at hn
            rw [hv] at hn
            by_cases hk : nameNode.kind = Kind.ScalarNode
            · simp only [hk, if_true, Option.some.injEq] at hn
              exact ⟨hk, hn⟩
            · simp [hk] at hn
          · exact e2 e h1

/-- C11, as the code runs it: on `contexts = [{context: ...}, {name: a}]`, whose
first entry has no `name` child, `valueOf(contextNode, "name")` is nil and
`modifyContextName(root, "a", "b")` aborts on `nameNode.Kind`: it neither
succeeds nor returns an error, and the same happens for an entry that is not a
mapping. -/
theorem modifyContextName_aborts_on_unnamed_entry :
    valueOf unnamedCtx "name" = none ∧
    (modifyContextName (kubeconfigOf [unnamedCtx, ctx "a"] "a") "a" "b").outcome
      = Outcome.panic ∧
    (modifyContextName (kubeconfigOf [unnamedCtx, ctx "a"] "a") "a" "b").outcome
      ≠ Outcome.ok ∧
    (∀ e, (modifyContextName (kubeconfigOf [unnamedCtx, ctx "a"] "a") "a" "b").outcome
      ≠ Outcome.error e) ∧
    (modifyContextName (kubeconfigOf [scalar "x", ctx "a"] "a") "a" "b").outcome
      = Outcome.panic :=
  ⟨rfl, rfl, by decide, fun e => by
    have h : (modifyContextName (kubeconfigOf [unnamedCtx, ctx "a"] "a") "a" "b").outcome
      = Outcome.panic := rfl
    rw [h]
    exact fun hh => Outcome.noConfusion hh, rfl⟩

/-- C12: when `modifyContextName(root, old, new)` succeeds, the root is a
mapping whose first `contexts` key holds a sequence; at the first entry of that
sequence whose `name` scalar equals `old`, the scalar stored under the first
`name` key has the value `new`; and the resulting tree is the input tree with
that one value replaced: kinds, values, formatting data, keys, the number and
order of entries and every other node are those of the input. -/
theorem modifyContextName_frame (root : Node) (old new : String)
    (hok : (modifyContextName root old new).outcome = Outcome.ok) :
    ∃ pre key contexts post before entry after pre2 key2 nameNode post2,
      root.kind = Kind.MappingNode ∧
      root.content = pre ++ key :: contexts :: post ∧
      pre.length % 2 = 0 ∧ valueOfList pre "contexts" = none ∧
      key.kind = Kind.ScalarNode ∧ key.value = "contexts" ∧
      contexts.kind = Kind.SequenceNode ∧
      contexts.content = before ++ entry :: after ∧
      (∀ e ∈ before, nameOf e ≠ some old) ∧
      entry.kind = Kind.MappingNode ∧
      entry.content = pre2 ++ key2 :: nameNode :: post2 ∧
      pre2.length % 2 = 0 ∧ valueOfList pre2 "name" = none ∧
      key2.kind = Kind.ScalarNode ∧ key2.value = "name" ∧
      nameNode.kind = Kind.ScalarNode ∧ nameNode.value = old ∧
      (modifyContextName root old new).root =
        Node.mk root.kind root.value root.fmt (pre ++ key ::
          Node.mk contexts.kind contexts.value contexts.fmt (before ++
            Node.mk entry.kind entry.value entry.fmt (pre2 ++ key2 ::
              Node.mk nameNode.kind new nameNode.fmt nameNode.content :: post2) :: after)
          :: post) := by
  obtain ⟨contexts, cs1, h1, h2, h3, h4⟩ := modifyContextName_ok root old new hok
  obtain ⟨r1, pre, key, post, r2, r3, r4, r5, r6, r7⟩ := valueOf_split root "contexts" contexts h1
  obtain ⟨before, entry, after, nameNode, l1, l2, l3, l4, l5, l6⟩ :=
    renameLoop_split old new _ _ h3
  obtain ⟨n1, pre2, key2, post2, n2, n3, n4, n5, n6, n7⟩ := valueOf_split entry "name" nameNode l3
  refine ⟨pre, key, contexts, post, before, entry, after, pre2, key2, nameNode, post2,
    r1, r2, r3, r4, r5, r6, h2, l1, l2, n1, n2, n3, n4, n5, n6, l4, l5, ?_⟩
  rw [h4, r7, Node.setContent_eq, l6, n7, Node.setValue_eq]

/-- Witness of `modifyContextName_frame`: `contexts = [a, b]`, rename of `a` to
`z`. -/
theorem modifyContextName_frame_witness :
    (modifyContextName (kubeconfig ["a", "b"] "a") "a" "z").outcome = Outcome.ok ∧
    (modifyContextName (kubeconfig ["a", "b"] "a") "a" "z").root = kubeconfig ["z", "b"] "a" ∧
    ∃ pre key contexts post before entry after pre2 key2 nameNode post2,
      (kubeconfig ["a", "b"] "a").kind = Kind.MappingNode ∧
      (kubeconfig ["a", "b"] "a").content = pre ++ key :: contexts :: post ∧
      pre.length % 2 = 0 ∧ valueOfList pre "contexts" = none ∧
      key.kind = Kind.ScalarNode ∧ key.value = "contexts" ∧
      contexts.kind = Kind.SequenceNode ∧
      contexts.content = before ++ entry :: after ∧
      (∀ e ∈ before, nameOf e ≠ some "a") ∧
      entry.kind = Kind.MappingNode ∧
      entry.content = pre2 ++ key2 :: nameNode :: post2 ∧
      pre2.length % 2 = 0 ∧ valueOfList pre2 "name" = none ∧
      key2.kind = Kind.ScalarNode ∧ key2.value = "name" ∧
      nameNode.kind = Kind.ScalarNode ∧ nameNode.value = "a" ∧
      (modifyContextName (kubeconfig ["a", "b"] "a") "a" "z").root =
        Node.mk (kubeconfig ["a", "b"] "a").kind (kubeconfig ["a", "b"] "a").value
          (kubeconfig ["a", "b"] "a").fmt (pre ++ key ::
          Node.mk contexts.kind contexts.value contexts.fmt (before ++
            Node.mk entry.kind entry.value entry.fmt (pre2 ++ key2 ::
              Node.mk nameNode.kind "z" nameNode.fmt nameNode.content :: post2) :: after)
          :: post) :=
  ⟨rfl, rfl, modifyContextName_frame (kubeconfig ["a", "b"] "a") "a" "z" rfl⟩

/-! ## `parseRenameSyntax` -/

theorem stringsSplit_ne_nil (sep : Char) (l : List Char) : stringsSplit sep l ≠ [] := by
  cases l with
  | nil => simp [stringsSplit]
  | cons c cs =>
    by_cases hc : c = sep
    · simp [stringsSplit, hc]
    · cases hs : stringsSplit sep cs <;> simp [stringsSplit, hc, hs]

theorem stringsSplit_single (sep : Char) (l b : List Char) :
    stringsSplit sep l = [b] ↔ l = b ∧ sep ∉ b := by
  induction l generalizing b with
  | nil =>
    simp only [stringsSplit, List.cons.injEq, and_true]
    constructor
    · intro h
      subst h
      simp
    · intro h
      exact h.1
  | cons c cs ih =>
    by_cases hc : c = sep
    · simp only [stringsSplit, hc, if_true, List.cons.injEq]
      constructor
      · intro h
        exact absurd h.2 (stringsSplit_ne_nil sep cs)
      · intro h
        exact absurd (h.1 ▸ List.mem_cons_self _ _) h.2
    · cases hs : stringsSplit sep cs with
      | nil => exact absurd hs (stringsSplit_ne_nil sep cs)
      | cons p ps =>
        simp only [stringsSplit, hc, if_false, hs, List.cons.injEq]
        constructor
        · rintro ⟨h1, h2⟩
          subst h1 h2
          obtain ⟨i1, i2⟩ := (ih p).1 hs
          subst i1
          refine ⟨rfl, ?_⟩
          intro hm
          rcases List.mem_cons.1 hm with h | h
          · exact hc h.symm
          · exact i2 h
        · rintro ⟨h1, h2⟩
          subst h1
          have h3 : sep ∉ cs := fun h => h2 (List.mem_cons_of_mem _ h)
          have h4 := (ih cs).2 ⟨rfl, h3⟩
          rw [hs] at h4
          simp only [List.cons.injEq] at h4
          exact ⟨by rw [h4.1], h4.2⟩

theorem stringsSplit_pair (sep : Char) (l a b : List Char) :
    stringsSplit sep l = [a, b] ↔ l = a ++ sep :: b ∧ sep ∉ a ∧ sep ∉ b := by
  induction l generalizing a with
  | nil => simp [stringsSplit]
  | cons c cs ih =>
    by_cases hc : c = sep
    · simp only [stringsSplit, hc, if_true, List.cons.injEq]
      constructor
      · rintro ⟨h1, h2⟩
        subst h1
        obtain ⟨i1, i2⟩ := (stringsSplit_single sep cs b).1 h2
        subst i1
        exact ⟨rfl, by simp, i2⟩
      · rintro ⟨h1, h2, h3⟩
        cases a with
        | nil =>
          simp only [List.nil_append, List.cons.injEq, true_and] at h1
          subst h1
          exact ⟨rfl, (stringsSplit_single sep cs cs).2 ⟨rfl, h3⟩⟩
        | cons x xs =>
          simp only [List.cons_append, List.cons.injEq] at h1
          exact absurd (h1.1 ▸ List.mem_cons_self _ _) h2
    · cases hs : stringsSplit sep cs with
      | nil => exact absurd hs (stringsSplit_ne_nil sep cs)
      | cons p ps =>
        simp only [stringsSplit, hc, if_false, hs, List.cons.injEq]
        constructor
        · rintro ⟨h1, h2⟩
          subst h1 h2
          obtain ⟨i1, i2, i3⟩ := (ih p).1 hs
          subst i1
          refine ⟨rfl, ?_, i3⟩
          intro hm
          rcases List.mem_cons.1 hm with h | h
          · exact hc h.symm
          · exact i2 h
        · rintro ⟨h1, h2, h3⟩
          cases a with
          | nil =>
            simp only [List.nil_append, List.cons.injEq] at h1
            exact absurd h1.1 hc
          | cons x xs =>
            simp only [List.cons_append, List.cons.injEq] at h1
            obtain ⟨e1, e2⟩ := h1
            subst e1
            have h4 : sep ∉ xs := fun h => h2 (List.mem_cons_of_mem _ h)
            have h5 := (ih xs).2 ⟨e2, h4, h3⟩
            rw [hs] at h5
            simp only [List.cons.injEq] at h5
            exact ⟨by rw [h5.1], h5.2⟩

theorem parseRenameSyntax_eq (v : String) :
    parseRenameSyntax v =
      match stringsSplit '=' v.data with
      | [a, b] => if a = [] ∨ b = [] then ("", "", false) else (String.mk a, String.mk b, true)
      | _ => ("", "", false) := by
  unfold parseRenameSyntax
  rcases hs : stringsSplit '=' v.data with _ | ⟨a, _ | ⟨b, _ | ⟨c, rest⟩⟩⟩
  · simp
  · simp
  · have ha : (String.mk a = "") ↔ a = [] := by
      rw [String.ext_iff]
    have hb : (String.mk b = "") ↔ b = [] := by
      rw [String.ext_iff]
    simp [ha, hb]
  · simp

theorem eq_append_eq_iff (v A B : String) :
    v = A ++ "=" ++ B ↔ v.data = A.data ++ '=' :: B.data := by
  rw [String.ext_iff, String.data_append, String.data_append]
  have h : ("=" : String).data = ['='] := rfl
  rw [h]
  simp

theorem parseRenameSyntax_true_iff (v A B : String) :
    parseRenameSyntax v = (A, B, true) ↔
      v = A ++ "=" ++ B ∧ A ≠ "" ∧ B ≠ "" ∧ '=' ∉ A.data ∧ '=' ∉ B.data := by
  have hA : A ≠ "" ↔ A.data ≠ [] := by
    rw [Ne, String.ext_iff]
  have hB : B ≠ "" ↔ B.data ≠ [] := by
    rw [Ne, String.ext_iff]
  rw [parseRenameSyntax_eq, eq_append_eq_iff, hA, hB]
  constructor
  · intro h
    rcases hs : stringsSplit '=' v.data with _ | ⟨a, _ | ⟨b, _ | ⟨c, rest⟩⟩⟩
    · simp [hs] at h
    · simp [hs] at h
    · rw [hs] at h
      by_cases he : a = [] ∨ b = []
      · simp [he] at h
      · simp only [he, if_false, Prod.mk.injEq, and_true] at h
        obtain ⟨h1, h2⟩ := h
        subst h1 h2
        obtain ⟨i1, i2, i3⟩ := (stringsSplit_pair '=' v.data a b).1 hs
        exact ⟨i1, fun h => he (Or.inl h), fun h => he (Or.inr h), i2, i3⟩
    · simp [hs] at h
  · rintro ⟨h1, h2, h3, h4, h5⟩
    have hs := (stringsSplit_pair '=' v.data A.data B.data).2 ⟨h1, h4, h5⟩
    rw [hs]
    simp [h2, h3]

theorem parseRenameSyntax_cases (v : String) :
    parseRenameSyntax v = ("", "", false) ∨ ∃ A B, parseRenameSyntax v = (A, B, true) := by
  rw [parseRenameSyntax_eq]
  rcases stringsSplit '=' v.data with _ | ⟨a, _ | ⟨b, _ | ⟨c, rest⟩⟩⟩
  · exact Or.inl rfl
  · exact Or.inl rfl
  · by_cases he : a = [] ∨ b = []
    · left
      simp [he]
    · right
      exact ⟨String.mk a, String.mk b, by simp [he]⟩
  · exact Or.inl rfl

/-- C13: `parseRenameSyntax(v)` returns `(A, B, true)` exactly when
`v = A ++ "=" ++ B` with `A` and `B` non-empty and without `=`; for every other
`v` it returns `("", "", false)`. -/
theorem parseRenameSyntax_spec (v : String) :
    (∀ A B : String, parseRenameSyntax v = (A, B, true) ↔
      v = A ++ "=" ++ B ∧ A ≠ "" ∧ B ≠ "" ∧ '=' ∉ A.data ∧ '=' ∉ B.data) ∧
    ((¬ ∃ A B : String,
        v = A ++ "=" ++ B ∧ A ≠ "" ∧ B ≠ "" ∧ '=' ∉ A.data ∧ '=' ∉ B.data) →
      parseRenameSyntax v = ("", "", false)) := by
  refine ⟨fun A B => parseRenameSyntax_true_iff v A B, ?_⟩
  intro hno
  rcases parseRenameSyntax_cases v with h | ⟨A, B, h⟩
  · exact h
  · exact absurd ⟨A, B, (parseRenameSyntax_true_iff v A B).1 h⟩ hno

/-- Witness of `parseRenameSyntax_spec`: `a=b` parses into `(a, b)`, and
`a=b=c`, which is not of the form, is rejected. -/
theorem parseRenameSyntax_spec_witness :
    parseRenameSyntax "a=b" = ("a", "b", true) ∧
    parseRenameSyntax "a=b=c" = ("", "", false) ∧
    (¬ ∃ A B : String,
        "a=b=c" = A ++ "=" ++ B ∧ A ≠ "" ∧ B ≠ "" ∧ '=' ∉ A.data ∧ '=' ∉ B.data) :=
  ⟨((parseRenameSyntax_spec "a=b").1 "a" "b").2 (by decide), rfl, by
    rintro ⟨A, B, h⟩
    have h2 := ((parseRenameSyntax_spec "a=b=c").1 A B).2 h
    have h3 : parseRenameSyntax "a=b=c" = ("", "", false) := rfl
    rw [h3] at h2
    simp at h2⟩

/-! ## The rename step inside `Run` -/

theorem renameLoop_named (old new : String) (cs : List Node)
    (hnamed : ∀ e ∈ cs, (valueOf e "name").isSome = true) :
    renameLoop old new cs ≠ Renamed.nilDeref := by
  induction cs with
  | nil => simp [renameLoop]
  | cons c cs ih =>
    have hc := hnamed c (List.mem_cons_self _ _)
    have ih2 := ih (fun e he => hnamed e (List.mem_cons_of_mem _ he))
    cases hv : valueOf c "name" with
    | none => simp [hv] at hc
    | some nameNode =>
      by_cases hm : nameNode.kind = Kind.ScalarNode ∧ nameNode.value = old
      · simp [renameLoop, hv, hm]
      · cases hr : renameLoop old new cs with
        | nilDeref => exact absurd hr ih2
        | unchanged => simp [renameLoop, hv, hm, hr]
        | changed rest1 => simp [renameLoop, hv, hm, hr]

theorem renameLoop_unchanged (old new : String) (cs : List Node)
    (hnamed : ∀ e ∈ cs, (valueOf e "name").isSome = true)
    (habs : old ∉ cs.filterMap nameOf) : renameLoop old new cs = Renamed.unchanged := by
  cases hr : renameLoop old new cs with
  | nilDeref => exact absurd hr (renameLoop_named old new cs hnamed)
  | unchanged => rfl
  | changed cs1 => exact absurd hr (renameLoop_absent old new cs cs1 habs)

theorem valueOf_kind (n : Node) (key : String) (v : Node) (h : valueOf n key = some v) :
    n.kind = Kind.MappingNode := by
  by_contra hk
  simp [valueOf, hk] at h

theorem modifyContextName_absent (root contexts : Node) (old new : String)
    (hv : valueOf root "contexts" = some contexts) (hk : contexts.kind = Kind.SequenceNode)
    (hnamed : AllNamed root) (habs : old ∉ contextNames root) :
    modifyContextName root old new = ⟨root, Outcome.error Err.noChanges, []⟩ := by
  have hr := valueOf_kind root _ _ hv
  have hc := contextsOf_eq root contexts hv hk
  have hl : renameLoop old new contexts.content = Renamed.unchanged := by
    apply renameLoop_unchanged
    · intro e he
      apply hnamed
      rw [hc]
      exact he
    · rw [← hc]
      exact habs
  simp [modifyContextName, hr, hv, hk, hl]

theorem Run_rename_failed (op : RenameOp) (env : Env) (root : Node) (e : Err)
    (hopen : env.openKubeconfig = Except.ok root)
    (hex : checkContextExists root (sourceName op root) = true)
    (hm : (modifyContextName (overwriteStep root op.New).1 (sourceName op root) op.New).outcome
      = Outcome.error e) :
    Run op env = ⟨Outcome.error (Err.wrapRename e),
      some (modifyContextName (overwriteStep root op.New).1 (sourceName op root) op.New).root,
      [Call.openKubeconfig, Call.getCurrentContext,
          Call.checkContextExists (sourceName op root)] ++ (overwriteStep root op.New).2.2.1 ++
        [Call.modifyContextName (sourceName op root) op.New],
      (overwriteStep root op.New).2.2.2 ++
        (modifyContextName (overwriteStep root op.New).1 (sourceName op root) op.New).stderr⟩ := by
  unfold sourceName at hex hm
  unfold Run
  simp only [hopen, hex]
  rw [overwriteStep_eq root op.New]
  simp only [sourceName, Bool.true_eq_false, if_false]
  generalize hM : modifyContextName (overwriteStep root op.New).1
    (if op.Old = "." then getCurrentContext root else op.Old) op.New = m at hm
  simp only [hm]

theorem Run_renamed_calls (op : RenameOp) (env : Env) (root : Node)
    (hopen : env.openKubeconfig = Except.ok root)
    (hex : checkContextExists root (sourceName op root) = true)
    (hm : (modifyContextName (overwriteStep root op.New).1 (sourceName op root) op.New).outcome
      = Outcome.ok) :
    (Run op env).calls =
      ([Call.openKubeconfig, Call.getCurrentContext,
          Call.checkContextExists (sourceName op root)] ++ (overwriteStep root op.New).2.2.1 ++
        [Call.modifyContextName (sourceName op root) op.New] ++
        (pointerStep
          (modifyContextName (overwriteStep root op.New).1 (sourceName op root) op.New).root
          op.New (getCurrentContext root)).2.2) ++
      [Call.saveKubeconfigRaw (pointerStep
          (modifyContextName (overwriteStep root op.New).1 (sourceName op root) op.New).root
          op.New (getCurrentContext root)).1] := by
  unfold sourceName at hex hm
  unfold Run
  simp only [hopen, hex]
  rw [overwriteStep_eq root op.New]
  simp only [sourceName, Bool.true_eq_false, if_false]
  generalize hM : modifyContextName (overwriteStep root op.New).1
    (if op.Old = "." then getCurrentContext root else op.Old) op.New = m at hm
  simp only [hm]
  rw [pointerStep_eq m.root op.New (getCurrentContext root)]
  simp only []
  cases hs : env.saveKubeconfigRaw (pointerStep m.root op.New (getCurrentContext root)).1 <;> rfl

theorem valueOf_isSome_of_nameOf (e : Node) (h : (nameOf e).isSome = true) :
    (valueOf e "name").isSome = true := by
  unfold nameOf at h
  cases hv : valueOf e "name" with
  | none => simp [hv] at h
  | some n => rfl

theorem scalarNamed_kubeconfig (names : List String) (cur : String) :
    ∀ e ∈ contextsOf (kubeconfig names cur), (nameOf e).isSome = true := by
  intro e he
  rw [contextsOf_kubeconfig] at he
  obtain ⟨n, _, hn⟩ := List.mem_map.1 he
  subst hn
  rfl

/-- C14: in a document whose context entries all carry a scalar `name`, once
the source name has passed the existence check and the overwrite step of `Run`
has run, `modifyContextName(root, Old, New)` does not succeed only if the source
name equals the target name. -/
theorem rename_step_fails_only_on_self (op : RenameOp) (root : Node)
    (hnamed : ∀ e ∈ contextsOf root, (nameOf e).isSome = true)
    (hsrc : checkContextExists root (sourceName op root) = true)
    (hfail : (modifyContextName (overwriteStep root op.New).1 (sourceName op root)
      op.New).outcome ≠ Outcome.ok) :
    sourceName op root = op.New := by
  by_contra hne
  have hall : AllNamed root := fun e he => valueOf_isSome_of_nameOf e (hnamed e he)
  have hmem : sourceName op root ∈ contextNames root := (checkContextExists_iff root _).1 hsrc
  have hmem1 : sourceName op root ∈ contextNames (overwriteStep root op.New).1 := by
    rw [overwriteStep_names]
    exact (List.mem_erase_of_ne hne).2 hmem
  exact hfail (modifyContextName_found _ _ _ (overwriteStep_named root op.New hall) hmem1)

/-- Witness of `rename_step_fails_only_on_self`: `contexts = [a]`, rename of `a`
to `a`; the rename step returns "no changes were made". -/
theorem rename_step_fails_only_on_self_witness :
    (∀ e ∈ contextsOf (kubeconfig ["a"] "a"), (nameOf e).isSome = true) ∧
    checkContextExists (kubeconfig ["a"] "a")
      (sourceName ⟨"a", "a"⟩ (kubeconfig ["a"] "a")) = true ∧
    (modifyContextName (overwriteStep (kubeconfig ["a"] "a") "a").1 "a" "a").outcome
      = Outcome.error Err.noChanges ∧
    sourceName ⟨"a", "a"⟩ (kubeconfig ["a"] "a") = "a" :=
  ⟨scalarNamed_kubeconfig _ _, rfl, rfl,
    rename_step_fails_only_on_self ⟨"a", "a"⟩ (kubeconfig ["a"] "a")
      (scalarNamed_kubeconfig _ _) rfl (by decide)⟩

/-- C15: for a root whose context entries all carry a `name` child,
`modifyContextName(root, old, new)` succeeds exactly when the root is a mapping,
its `contexts` value is present and is a sequence, and some entry of it has a
scalar `name` equal to `old`; a root that is not a mapping, a missing
`contexts`, a `contexts` that is not a sequence and a sequence without a
matching entry each yield an error. -/
theorem modifyContextName_success_iff (root : Node) (old new : String)
    (hnamed : AllNamed root) :
    ((modifyContextName root old new).outcome = Outcome.ok ↔
      root.kind = Kind.MappingNode ∧
      ∃ contexts, valueOf root "contexts" = some contexts ∧
        contexts.kind = Kind.SequenceNode ∧
        ∃ e ∈ contexts.content, nameOf e = some old) ∧
    (root.kind ≠ Kind.MappingNode →
      (modifyContextName root old new).outcome = Outcome.error Err.rootNotMapping) ∧
    (root.kind = Kind.MappingNode → valueOf root "contexts" = none →
      (modifyContextName root old new).outcome = Outcome.error Err.contextsNil) ∧
    (root.kind = Kind.MappingNode → ∀ contexts, valueOf root "contexts" = some contexts →
      contexts.kind ≠ Kind.SequenceNode →
      (modifyContextName root old new).outcome = Outcome.error Err.contextsNotSequence) ∧
    (root.kind = Kind.MappingNode → ∀ contexts, valueOf root "contexts" = some contexts →
      contexts.kind = Kind.SequenceNode → (∀ e ∈ contexts.content, nameOf e ≠ some old) →
      (modifyContextName root old new).outcome = Outcome.error Err.noChanges) := by
  refine ⟨⟨?_, ?_⟩, ?_, ?_, ?_, ?_⟩
  · intro hok
    obtain ⟨contexts, cs1, h1, h2, h3, _⟩ := modifyContextName_ok root old new hok
    obtain ⟨_, l1, l2, e3, _, _⟩ := renameLoop_changed old new _ _ h3
    have hmem : old ∈ contexts.content.filterMap nameOf := by
      rw [e3]
      simp
    obtain ⟨e, he, hn⟩ := List.mem_filterMap.1 hmem
    exact ⟨valueOf_kind root _ _ h1, contexts, h1, h2, e, he, hn⟩
  · rintro ⟨_, contexts, h1, h2, e, he, hn⟩
    apply modifyContextName_found root old new hnamed
    unfold contextNames
    rw [contextsOf_eq root contexts h1 h2]
    exact List.mem_filterMap.2 ⟨e, he, hn⟩
  · intro hr
    simp [modifyContextName, hr]
  · intro hr hv
    simp [modifyContextName, hr, hv]
  · intro hr contexts hv hk
    simp [modifyContextName, hr, hv, hk]
  · intro _ contexts hv hk habs
    rw [modifyContextName_absent root contexts old new hv hk hnamed]
    unfold contextNames
    rw [contextsOf_eq root contexts hv hk]
    intro hmem
    obtain ⟨e, he, hn⟩ := List.mem_filterMap.1 hmem
    exact habs e he hn

/-- Witness of `modifyContextName_success_iff`: on `contexts = [a, b]` the
rename of `a` succeeds and the rename of the absent `missing` returns an
error. -/
theorem modifyContextName_success_iff_witness :
    AllNamed (kubeconfig ["a", "b"] "a") ∧
    (modifyContextName (kubeconfig ["a", "b"] "a") "a" "z").outcome = Outcome.ok ∧
    (modifyContextName (kubeconfig ["a", "b"] "a") "missing" "z").outcome
      = Outcome.error Err.noChanges ∧
    ((kubeconfig ["a", "b"] "a").kind = Kind.MappingNode ∧
      ∃ contexts, valueOf (kubeconfig ["a", "b"] "a") "contexts" = some contexts ∧
        contexts.kind = Kind.SequenceNode ∧
        ∃ e ∈ contexts.content, nameOf e = some "a") :=
  ⟨allNamed_kubeconfig _ _, rfl, rfl,
    (modifyContextName_success_iff (kubeconfig ["a", "b"] "a") "a" "z"
      (allNamed_kubeconfig _ _)).1.1 rfl⟩

/-- C16, as the code runs it: in `contexts = [{context: ...}, {name: a}]`
exactly one entry is named `a`; `Run` with source `a` and target `a` deletes
that entry and then aborts in the rename step, where `modifyContextName` reads
`nameNode.Kind` of the entry without a `name` child, instead of returning an
error. -/
theorem run_self_rename_aborts_on_unnamed_entry :
    (contextNames (kubeconfigOf [unnamedCtx, ctx "a"] "a")).count "a" = 1 ∧
    (Run ⟨"a", "a"⟩ (envOf (kubeconfigOf [unnamedCtx, ctx "a"] "a"))).outcome
      = Outcome.panic ∧
    (∀ e, (Run ⟨"a", "a"⟩ (envOf (kubeconfigOf [unnamedCtx, ctx "a"] "a"))).outcome
      ≠ Outcome.error e) ∧
    (Run ⟨"a", "a"⟩ (envOf (kubeconfigOf [unnamedCtx, ctx "a"] "a"))).root
      = some (kubeconfigOf [unnamedCtx] "a") :=
  ⟨by decide, rfl, fun e => by
    have h : (Run ⟨"a", "a"⟩ (envOf (kubeconfigOf [unnamedCtx, ctx "a"] "a"))).outcome
      = Outcome.panic := rfl
    rw [h]
    exact fun hh => Outcome.noConfusion hh, rfl⟩

/-- Self-rename where the nil dereference cannot occur: in a document whose
context entries all carry a `name` child and in which exactly one entry is named
`n`, `Run` with source `n` and target `n` takes the overwrite branch (warning,
then delete), calls `modifyContextName`, which returns "no changes were made",
and returns that error wrapped; the saver is never invoked, and the tree in
memory has one entry fewer and no entry named `n`. -/
theorem run_self_rename (op : RenameOp) (env : Env) (root : Node)
    (hopen : env.openKubeconfig = Except.ok root)
    (hnamed : AllNamed root)
    (hone : (contextNames root).count op.New = 1)
    (hself : sourceName op root = op.New) :
    (Run op env).calls =
      [Call.openKubeconfig, Call.getCurrentContext, Call.checkContextExists op.New,
        Call.checkContextExists op.New, Call.printWarning op.New,
        Call.modifyDocToDeleteContext op.New, Call.modifyContextName op.New op.New] ∧
    (Run op env).outcome = Outcome.error (Err.wrapRename Err.noChanges) ∧
    savedDocs (Run op env).calls = [] ∧
    (Run op env).stderr = [Output.warning op.New] ∧
    ∃ root1, (Run op env).root = some root1 ∧
      (contextsOf root1).length + 1 = (contextsOf root).length ∧
      op.New ∉ contextNames root1 := by
  have hmem : op.New ∈ contextNames root := List.count_pos_iff.1 (by omega)
  have hex : checkContextExists root op.New = true := (checkContextExists_iff root _).2 hmem
  obtain ⟨contexts, cs1, h1, h2, h3, h4⟩ := overwriteStep_present root op.New hex
  have hn1 := overwriteStep_named root op.New hnamed
  have hnames := overwriteStep_names root op.New
  have hlen := overwriteStep_length root op.New hex
  have habs : op.New ∉ contextNames (overwriteStep root op.New).1 := by
    rw [hnames]
    intro h
    have h5 := List.count_pos_iff.2 h
    rw [List.count_erase_self, hone] at h5
    omega
  have hv1 : valueOf (overwriteStep root op.New).1 "contexts"
      = some (contexts.setContent cs1) := by
    rw [h4]
    exact valueOf_put_same root _ _ (by simp [h1])
  have hm := modifyContextName_absent (overwriteStep root op.New).1 (contexts.setContent cs1)
    op.New op.New hv1 (by simp [h2]) hn1 habs
  have hrun := Run_rename_failed op env root Err.noChanges hopen (by rw [hself]; exact hex)
    (by rw [hself, hm])
  rw [hself, hm] at hrun
  rw [hrun]
  refine ⟨?_, rfl, ?_, ?_, _, rfl, hlen, habs⟩
  · rw [h4]
    rfl
  · rw [h4]
    rfl
  · rw [h4]
    rfl

/-- Witness of `run_self_rename`: `contexts = [a, b]`, rename of `a` to `a`. -/
theorem run_self_rename_witness :
    AllNamed (kubeconfig ["a", "b"] "b") ∧
    (contextNames (kubeconfig ["a", "b"] "b")).count "a" = 1 ∧
    sourceName ⟨"a", "a"⟩ (kubeconfig ["a", "b"] "b") = "a" ∧
    (Run ⟨"a", "a"⟩ (envOf (kubeconfig ["a", "b"] "b"))).root
      = some (kubeconfig ["b"] "b") ∧
    ((Run ⟨"a", "a"⟩ (envOf (kubeconfig ["a", "b"] "b"))).calls =
      [Call.openKubeconfig, Call.getCurrentContext, Call.checkContextExists "a",
        Call.checkContextExists "a", Call.printWarning "a",
        Call.modifyDocToDeleteContext "a", Call.modifyContextName "a" "a"] ∧
    (Run ⟨"a", "a"⟩ (envOf (kubeconfig ["a", "b"] "b"))).outcome
      = Outcome.error (Err.wrapRename Err.noChanges) ∧
    savedDocs (Run ⟨"a", "a"⟩ (envOf (kubeconfig ["a", "b"] "b"))).calls = [] ∧
    (Run ⟨"a", "a"⟩ (envOf (kubeconfig ["a", "b"] "b"))).stderr = [Output.warning "a"] ∧
    ∃ root1, (Run ⟨"a", "a"⟩ (envOf (kubeconfig ["a", "b"] "b"))).root = some root1 ∧
      (contextsOf root1).length + 1 = (contextsOf (kubeconfig ["a", "b"] "b")).length ∧
      "a" ∉ contextNames root1) :=
  ⟨allNamed_kubeconfig _ _, by decide, rfl, rfl,
    run_self_rename ⟨"a", "a"⟩ (envOf (kubeconfig ["a", "b"] "b"))
      (kubeconfig ["a", "b"] "b") rfl (allNamed_kubeconfig _ _) (by decide) rfl⟩

theorem Run_open_failed (op : RenameOp) (env : Env) (e : Err)
    (hopen : env.openKubeconfig = Except.error e) :
    Run op env = ⟨Outcome.ok, none, [Call.openKubeconfig], []⟩ := by
  simp [Run, hopen]

/-- C17: in every execution of `Run` the saver is invoked at most once; when it
is invoked, the document was loaded, the existence check passed, the overwrite
step, the rename and the pointer step all ended without error, the saved
document is the tree they left, and the call of the saver is the last call of
the execution; when `Run` returns an error that is not the wrapped error of the
saver, or aborts, the saver was never invoked. -/
theorem run_saves_last_at_most_once (op : RenameOp) (env : Env) :
    (savedDocs (Run op env).calls).length ≤ 1 ∧
    (∀ doc ∈ savedDocs (Run op env).calls,
      ∃ root pre, env.openKubeconfig = Except.ok root ∧
        checkContextExists root (sourceName op root) = true ∧
        (overwriteStep root op.New).2.1 = none ∧
        (modifyContextName (overwriteStep root op.New).1 (sourceName op root)
          op.New).outcome = Outcome.ok ∧
        (pointerStep
          (modifyContextName (overwriteStep root op.New).1 (sourceName op root) op.New).root
          op.New (getCurrentContext root)).2.1 = none ∧
        doc = (pointerStep
          (modifyContextName (overwriteStep root op.New).1 (sourceName op root) op.New).root
          op.New (getCurrentContext root)).1 ∧
        (Run op env).calls = pre ++ [Call.saveKubeconfigRaw doc] ∧
        savedDocs pre = [] ∧
        Call.modifyContextName (sourceName op root) op.New ∈ pre) ∧
    (∀ e, (Run op env).outcome = Outcome.error e → (∀ c, e ≠ Err.wrapSave c) →
      savedDocs (Run op env).calls = []) ∧
    ((Run op env).outcome = Outcome.panic → savedDocs (Run op env).calls = []) := by
  cases hopen : env.openKubeconfig with
  | error e0 =>
    rw [Run_open_failed op env e0 hopen]
    refine ⟨by simp [savedDocs], ?_, fun _ _ _ => rfl, fun _ => rfl⟩
    intro doc hdoc
    simp [savedDocs] at hdoc
  | ok root =>
    cases hex : checkContextExists root (sourceName op root) with
    | false =>
      rw [Run_missing op env root hopen hex]
      refine ⟨by simp [savedDocs], ?_, fun _ _ _ => rfl, fun _ => rfl⟩
      intro doc hdoc
      simp [savedDocs] at hdoc
    | true =>
      by_cases hm : (modifyContextName (overwriteStep root op.New).1 (sourceName op root)
          op.New).outcome = Outcome.ok
      · obtain ⟨_, r2, r3⟩ := Run_renamed op env root hopen hex hm
        have r4 := Run_renamed_calls op env root hopen hex hm
        refine ⟨by rw [r2]; simp, ?_, ?_, ?_⟩
        · intro doc hdoc
          rw [r2, List.mem_singleton] at hdoc
          subst hdoc
          refine ⟨root, _, rfl, hex, by rw [overwriteStep_eq], hm, by rw [pointerStep_eq],
            rfl, r4, ?_, ?_⟩
          · simp [savedDocs_append, savedDocs, overwriteStep_saved, pointerStep_saved]
          · simp
        · intro e he hne
          rw [r3] at he
          cases hs : env.saveKubeconfigRaw (pointerStep
            (modifyContextName (overwriteStep root op.New).1 (sourceName op root) op.New).root
            op.New (getCurrentContext root)).1 with
          | none => simp [hs] at he
          | some c =>
            simp only [hs, Outcome.error.injEq] at he
            exact absurd he.symm (hne c)
        · intro hp
          rw [r3] at hp
          cases hs : env.saveKubeconfigRaw (pointerStep
            (modifyContextName (overwriteStep root op.New).1 (sourceName op root) op.New).root
            op.New (getCurrentContext root)).1 with
          | none => simp [hs] at hp
          | some c => simp [hs] at hp
      · obtain ⟨_, r2, _⟩ := Run_not_renamed op env root hopen hex hm
        refine ⟨by rw [r2]; simp, ?_, fun _ _ _ => r2, fun _ => r2⟩
        intro doc hdoc
        rw [r2] at hdoc
        simp at hdoc

/-- Witness of `run_saves_last_at_most_once`: in scenario A the saver is called
once, with `contexts = [z, b]`; in the self-rename of `a` it is not called. -/
theorem run_saves_last_at_most_once_witness :
    savedDocs (Run ⟨"z", "a"⟩ (envOf (kubeconfig ["a", "b"] "a"))).calls
      = [kubeconfig ["z", "b"] "a"] ∧
    (savedDocs (Run ⟨"z", "a"⟩ (envOf (kubeconfig ["a", "b"] "a"))).calls).length ≤ 1 ∧
    (Run ⟨"a", "a"⟩ (envOf (kubeconfig ["a"] "a"))).outcome
      = Outcome.error (Err.wrapRename Err.noChanges) ∧
    savedDocs (Run ⟨"a", "a"⟩ (envOf (kubeconfig ["a"] "a"))).calls = [] :=
  ⟨rfl, (run_saves_last_at_most_once ⟨"z", "a"⟩ (envOf (kubeconfig ["a", "b"] "a"))).1, rfl,
    (run_saves_last_at_most_once ⟨"a", "a"⟩ (envOf (kubeconfig ["a"] "a"))).2.2.1
      (Err.wrapRename Err.noChanges) rfl (fun _ h => Err.noConfusion h)⟩

end Kubectx
